import Mathlib

/-!
Verification development for the storage-engine primitives of a BusTub-style
database engine: the LRU-K replacer (`src/buffer/lru_k_replacer.cpp`), the
extendible hash table (`src/container/hash/extendible_hash_table.cpp`) and the
concurrent B+Tree (`src/storage/index/b_plus_tree.cpp`).

The C++ sources are shallowly embedded as executable Lean functions.  Mutexes
and page latches are dropped (each public operation is modelled as one atomic
state transition, which is exactly how the single-mutex / latch-crabbing code
behaves for a single thread).  `std::unordered_map` fields are modelled as
association lists so that `operator[]` default-insertion — which is observable
in the C++ code — is preserved faithfully.  Machine integers are modelled as
`Int` (for `frame_id_t`, a signed 32-bit type, whose values in every trace we
evaluate stay far away from overflow) and `Nat` (for sizes, hashes and page
ids, where the C++ uses `size_t` / non-negative `int` values).
-/

/-! # LRU-K replacer (`lru_k_replacer.cpp`)

State of `LRUKReplacer`.  `histList` is `history_list_` (frames with fewer
than `k` recorded accesses, most recently inserted at the front), `buffList`
is `buffer_list_` (frames with at least `k` accesses, most recently promoted
or accessed at the front), `cnt` is `history_cnt_` (an association list,
because membership of a key with value 0 is observable through
`history_cnt_.find`), `evictFlags` is `evictable_`.
-/
structure LRUK where
  rsize : Nat
  k : Nat
  currSize : Nat
  histList : List Int
  buffList : List Int
  cnt : List (Int × Nat)
  evictFlags : List (Int × Bool)
deriving DecidableEq

/-- Initial replacer: `LRUKReplacer(num_frames, k)` sets only the two
configuration fields; all containers start empty. -/
def lruInit (numFrames k : Nat) : LRUK :=
  ⟨numFrames, k, 0, [], [], [], []⟩

/-- Association-list lookup, the effect of `map.find(key)` without insertion. -/
def alookup (m : List (Int × α)) (f : Int) : Option α :=
  (m.find? (fun p => p.1 = f)).map (fun p => p.2)

/-- Association-list store: the effect of assigning through `map[key] = v`
(overwrites the existing entry, otherwise appends a fresh one). -/
def aset (m : List (Int × α)) (f : Int) (v : α) : List (Int × α) :=
  if (m.find? (fun p => p.1 = f)).isSome then
    m.map (fun p => if p.1 = f then (f, v) else p)
  else m ++ [(f, v)]

/-- Association-list erase, the effect of `map.erase(key)`. -/
def aerase (m : List (Int × α)) (f : Int) : List (Int × α) :=
  m.filter (fun p => p.1 ≠ f)

/-- `std::unordered_map::operator[]` on `history_cnt_`: reads the entry,
default-inserting `0` when the key is absent.  Returns the value read and the
(possibly grown) map.  This default insertion is the load-bearing behaviour of
`SetEvictable` on a never-recorded frame. -/
def agetOrInsert0 (m : List (Int × Nat)) (f : Int) : Nat × List (Int × Nat) :=
  match alookup m f with
  | some v => (v, m)
  | none => (0, m ++ [(f, 0)])

/-- `operator[]` on `evictable_`: reads, default-inserting `false`. -/
def agetOrInsertFalse (m : List (Int × Bool)) (f : Int) : Bool × List (Int × Bool) :=
  match alookup m f with
  | some v => (v, m)
  | none => (false, m ++ [(f, false)])

/-- Reading `evictable_[x]` inside the eviction scans: the scan only consumes
the value (missing entries read as `false`); the default insertion performed
by `operator[]` there is never observable afterwards because the surviving
entries are only ever read through `operator[]` again. -/
def evictableRead (m : List (Int × Bool)) (f : Int) : Bool :=
  (alookup m f).getD false

/-- Modelled from the spec: `InsertHistory` — a frame's first access inserts
it at the front of the history queue ("most recently inserted at the front").
The helper itself lives in the missing header `lru_k_replacer.h`. -/
def insertHistory (l : List Int) (f : Int) : List Int := f :: l

/-- Modelled from the spec: `RemoveNodeHistory` — erases the frame from the
history queue (no-op when absent). -/
def removeNode (l : List Int) (f : Int) : List Int := l.filter (fun x => x ≠ f)

/-- Modelled from the spec: `InsertBuffer` — "if `f` is already in the cache
queue on any subsequent access, it is moved to the front", so the insertion
first erases any existing occurrence and then pushes the frame to the front. -/
def insertBuffer (l : List Int) (f : Int) : List Int := f :: l.filter (fun x => x ≠ f)

/-- Modelled from the spec: `IsFull` — the replacer tracks at most
`replacer_size` frames; it is full when its two queues already hold
`replacer_size` frames. -/
def lruIsFull (s : LRUK) : Bool := s.rsize ≤ s.histList.length + s.buffList.length

/-- The common eviction scan of `Evict` and of the full-replacer branch of
`RecordAccess`: walk `history_list_` from the rear (`rbegin`) for the first
evictable frame, then `buffer_list_` from the rear; on a hit erase the frame
from `evictable_`, `history_cnt_`, its queue, and decrement `curr_size_`. -/
def lruScanVictim (s : LRUK) : Option (Int × LRUK) :=
  match s.histList.reverse.find? (fun f => evictableRead s.evictFlags f) with
  | some f =>
      some (f, { s with
        evictFlags := aerase s.evictFlags f
        cnt := aerase s.cnt f
        currSize := s.currSize - 1
        histList := removeNode s.histList f })
  | none =>
      match s.buffList.reverse.find? (fun f => evictableRead s.evictFlags f) with
      | some f =>
          some (f, { s with
            evictFlags := aerase s.evictFlags f
            cnt := aerase s.cnt f
            currSize := s.currSize - 1
            buffList := removeNode s.buffList f })
      | none => none

/-- `LRUKReplacer::Evict`: returns `none` when no victim was produced (the
C++ returns `false` and leaves the out-parameter untouched), otherwise the
victim frame id and the updated state. -/
def lruEvict (s : LRUK) : Option Int × LRUK :=
  if s.currSize = 0 then (none, s)
  else
    match lruScanVictim s with
    | some (f, s1) => (some f, s1)
    | none => (none, s)

/-- The tail of `RecordAccess`: `++history_cnt_[frame_id]` followed by the
promotion to the buffer queue once the count reaches `k_`. -/
def lruBumpCount (s : LRUK) (f : Int) : LRUK :=
  let c := (alookup s.cnt f).getD 0 + 1
  let s1 := { s with cnt := aset s.cnt f c }
  if s1.k ≤ c then
    { s1 with histList := removeNode s1.histList f, buffList := insertBuffer s1.buffList f }
  else s1

/-- The first-access branch of `RecordAccess`: insert at the front of the
history queue and create `evictable_[f] = false`. -/
def lruFreshInsert (s : LRUK) (f : Int) : LRUK :=
  { s with histList := insertHistory s.histList f, evictFlags := aset s.evictFlags f false }

/-- `LRUKReplacer::RecordAccess`.  `none` models the fatal
`BUSTUB_ASSERT(frame_id <= static_cast<frame_id_t>(replacer_size_), ...)`
failure; note the assertion is `≤`, not `<`.  When the frame is unseen
(absent from `history_cnt_`, where an entry with value `0` counts as seen)
and the replacer is full, a victim is first evicted; if no frame is
evictable, `RecordAccess` silently returns without recording anything. -/
def lruRecordAccess (s : LRUK) (f : Int) : Option LRUK :=
  if (s.rsize : Int) < f then none
  else if (alookup s.cnt f).isSome then some (lruBumpCount s f)
  else if lruIsFull s then
    match lruScanVictim s with
    | some (_, s1) => some (lruBumpCount (lruFreshInsert s1 f) f)
    | none => some s
  else some (lruBumpCount (lruFreshInsert s f) f)

/-- `LRUKReplacer::SetEvictable`.  The guard `history_cnt_[frame_id] == 0`
uses `operator[]`, so a never-recorded frame gains a `0` entry in
`history_cnt_` before the early return — after which a later first
`RecordAccess` no longer treats the frame as unseen. -/
def lruSetEvictable (s : LRUK) (f : Int) (b : Bool) : Option LRUK :=
  if (s.rsize : Int) < f then none
  else
    let cm := agetOrInsert0 s.cnt f
    let s1 := { s with cnt := cm.2 }
    if cm.1 = 0 then some s1
    else
      let em := agetOrInsertFalse s1.evictFlags f
      let s2 := { s1 with evictFlags := em.2 }
      if em.1 && !b then
        some { s2 with currSize := s2.currSize - 1, evictFlags := aset s2.evictFlags f false }
      else if !em.1 && b then
        some { s2 with currSize := s2.currSize + 1, evictFlags := aset s2.evictFlags f true }
      else some s2

/-- `LRUKReplacer::Remove`.  `none` models both the fatal assertion on the
frame id and the `throw std::exception()` on a non-evictable target. -/
def lruRemoveOp (s : LRUK) (f : Int) : Option LRUK :=
  if (s.rsize : Int) < f then none
  else
    match alookup s.cnt f with
    | none => some s
    | some c =>
        if c = 0 then some s
        else
          let em := agetOrInsertFalse s.evictFlags f
          let s1 := { s with evictFlags := em.2 }
          if !em.1 then none
          else
            let s2 :=
              if c < s1.k then { s1 with histList := removeNode s1.histList f }
              else { s1 with buffList := removeNode s1.buffList f }
            some { s2 with
              currSize := s2.currSize - 1
              cnt := aerase s2.cnt f
              evictFlags := aerase s2.evictFlags f }

/-- Public operations of the replacer, for running call traces. -/
inductive LRUOp where
  | ra (f : Int)
  | se (f : Int) (b : Bool)
  | ev
  | rm (f : Int)
deriving DecidableEq

/-- One public call; the victim produced by `Evict` is discarded here (the
theorems that need it call `lruEvict` directly). -/
def lruStep (s : LRUK) : LRUOp → Option LRUK
  | .ra f => lruRecordAccess s f
  | .se f b => lruSetEvictable s f b
  | .ev => some (lruEvict s).2
  | .rm f => lruRemoveOp s f

/-- Run a trace of public calls from a fresh replacer. -/
def lruRun (numFrames k : Nat) (ops : List LRUOp) : Option LRUK :=
  ops.foldl (fun acc op => acc.bind (fun s => lruStep s op)) (some (lruInit numFrames k))

/-! ## LRU-K claims -/

/-- The replacer state after the trace
`SetEvictable(0,true); RecordAccess(0)` on a replacer with
`replacer_size = 10`, `k = 2`. -/
def lruStateC4 : LRUK := (lruRun 10 2 [.se 0 true, .ra 0]).getD (lruInit 0 0)

/-- C4: the queue-membership invariant fails on the code.  After
`SetEvictable(0, true); RecordAccess(0)` (with `replacer_size = 10`, `k = 2`)
frame 0 has a recorded access (`history_cnt_[0] = 1`, never evicted or
removed) yet appears in neither the history queue nor the cache queue: the
`operator[]` in `SetEvictable`'s guard default-inserted a `history_cnt_`
entry of `0`, so the subsequent first `RecordAccess` skipped the
queue-insertion branch. -/
theorem c4_queue_membership_violated :
    lruRun 10 2 [.se 0 true, .ra 0] = some lruStateC4 ∧
    alookup lruStateC4.cnt 0 = some 1 ∧
    lruStateC4.histList = [] ∧
    lruStateC4.buffList = [] := by
  refine ⟨rfl, rfl, rfl, rfl⟩

/-- The replacer state after the trace
`SetEvictable(0,true); RecordAccess(0); SetEvictable(0,true)` on a replacer
with `replacer_size = 10`, `k = 2`. -/
def lruStateC7 : LRUK := (lruRun 10 2 [.se 0 true, .ra 0, .se 0 true]).getD (lruInit 0 0)

/-- C7: `Evict` does not return true whenever `current_size > 0`.  After
`SetEvictable(0,true); RecordAccess(0); SetEvictable(0,true)` the state is
reachable, `curr_size_ = 1`, yet `Evict` returns false (no victim is
written): frame 0 is counted as evictable but sits in neither queue, so both
eviction scans come up empty. -/
theorem c7_evict_false_with_positive_size :
    lruRun 10 2 [.se 0 true, .ra 0, .se 0 true] = some lruStateC7 ∧
    lruStateC7.currSize = 1 ∧
    (lruEvict lruStateC7).1 = none := by
  refine ⟨rfl, rfl, rfl⟩

/-- The replacer state after the trace
`SetEvictable(0,true); RecordAccess(0); SetEvictable(0,true);
RecordAccess(1); SetEvictable(1,true)` with `replacer_size = 10`, `k = 2`. -/
def lruStateC2 : LRUK :=
  (lruRun 10 2 [.se 0 true, .ra 0, .se 0 true, .ra 1, .se 1 true]).getD (lruInit 0 0)

/-- C2: the eviction policy fails on the code.  In the final state both
frames 0 and 1 are evictable and have a single recorded access (so both have
infinite backward k-distance for `k = 2`), and frame 0's first access
happened strictly before frame 1's, so a correct LRU-K `Evict` must return
frame 0.  The code returns frame 1: frame 0 never entered the history queue
(its `history_cnt_` entry was pre-created by `SetEvictable`), so the rear
scan of the history queue only sees frame 1. -/
theorem c2_evict_policy_violated :
    lruRun 10 2 [.se 0 true, .ra 0, .se 0 true, .ra 1, .se 1 true] = some lruStateC2 ∧
    (lruEvict lruStateC2).1 = some 1 ∧
    alookup lruStateC2.cnt 0 = some 1 ∧
    alookup lruStateC2.cnt 1 = some 1 ∧
    evictableRead lruStateC2.evictFlags 0 = true ∧
    evictableRead lruStateC2.evictFlags 1 = true := by
  refine ⟨rfl, rfl, rfl, rfl, rfl, rfl⟩

/-- C8 counterexample: a `RecordAccess` call with `f = replacer_size` (here
`f = 5 = replacer_size`) does not fail the fatal assertion — the code asserts
`frame_id <= replacer_size_`, not `<` — and in fact records the frame into
the history queue. -/
theorem c8_boundary_call_passes_assert :
    (lruRecordAccess (lruInit 5 2) 5).isSome = true ∧
    ((lruRecordAccess (lruInit 5 2) 5).getD (lruInit 0 0)).histList = [5] := by
  refine ⟨rfl, rfl⟩

/-- C8 (amended): `RecordAccess(f)` fails its fatal assertion exactly when
`f > replacer_size`; every call with `f ≤ replacer_size` — including
`f = replacer_size` and negative `f`, since `frame_id_t` is signed — passes
the assertion and completes. -/
theorem c8_record_access_assert_range (s : LRUK) (f : Int) :
    lruRecordAccess s f = none ↔ (s.rsize : Int) < f := by
  unfold lruRecordAccess
  by_cases hlt : (s.rsize : Int) < f
  · simp [hlt]
  · simp only [if_neg hlt]
    constructor
    · intro h
      split at h
      · exact Option.noConfusion h
      · split at h
        · split at h <;> exact Option.noConfusion h
        · exact Option.noConfusion h
    · intro h
      exact absurd h hlt

/-! # B+Tree (`b_plus_tree.cpp`)

Pages live in an arena keyed by page id (the buffer pool); `0` plays the role
of `INVALID_PAGE_ID` and real pages get ids `1, 2, ...` in allocation order
(`NewPage`).  A leaf page carries `parent_page_id`, `next_page_id` and its
sorted `(key, value)` array; an internal page carries `parent_page_id` and
its `(key, child_page_id)` array whose slot-0 key is unused.  Latches, pin
counts and the transaction page set are dropped (single-threaded semantics);
the transaction's deleted-page set is threaded explicitly because `Remove`
consumes it.  Keys and values are `Nat`.
-/
inductive BPage where
  | leaf (parent next : Nat) (kvs : List (Nat × Nat))
  | internal (parent : Nat) (kcs : List (Nat × Nat))
deriving DecidableEq

/-- Header-page traffic of `UpdateRootPageId`: `InsertRecord` vs
`UpdateRecord`, each carrying the `root_page_id` written. -/
inductive HeaderRec where
  | hInsert (rid : Nat)
  | hUpdate (rid : Nat)
deriving DecidableEq

/-- Whole-tree state: `root_page_id_`, the page arena, the allocator cursor
of `NewPage`, and the log of header-page record operations. -/
structure BTState where
  root : Nat
  pages : List (Nat × BPage)
  nextId : Nat
  headerLog : List HeaderRec
deriving DecidableEq

/-- A freshly constructed tree: `root_page_id_ = INVALID_PAGE_ID`. -/
def btEmpty : BTState := ⟨0, [], 1, []⟩

/-- Arena lookup (`FetchPage`). -/
def plookup (m : List (Nat × α)) (i : Nat) : Option α :=
  (m.find? (fun p => p.1 = i)).map (fun p => p.2)

/-- Arena store: overwrite the page if present, else allocate the slot. -/
def pset (m : List (Nat × α)) (i : Nat) (v : α) : List (Nat × α) :=
  if (m.find? (fun p => p.1 = i)).isSome then
    m.map (fun p => if p.1 = i then (i, v) else p)
  else m ++ [(i, v)]

/-- `GetParentPageId`. -/
def bpParent : BPage → Nat
  | .leaf p _ _ => p
  | .internal p _ => p

/-- `GetSize`. -/
def bpSize : BPage → Nat
  | .leaf _ _ kvs => kvs.length
  | .internal _ kcs => kcs.length

/-- `IsLeafPage`. -/
def bpIsLeaf : BPage → Bool
  | .leaf _ _ _ => true
  | .internal _ _ => false

/-- `GetMaxSize`: `leaf_max_size_` for leaves, `internal_max_size_` for
internal pages. -/
def bpMaxSize (L I : Nat) : BPage → Nat
  | .leaf _ _ _ => L
  | .internal _ _ => I

/-- Modelled from the spec: `GetMinSize` (defined in the missing page
headers) — "for leaves, `min_size = ⌈L/2⌉`; for internals,
`min_size = ⌈I/2⌉`". -/
def bpMinSize (L I : Nat) : BPage → Nat
  | .leaf _ _ _ => (L + 1) / 2
  | .internal _ _ => (I + 1) / 2

/-- `SetParentPageId` on the page with id `pid`. -/
def btSetParent (s : BTState) (pid newParent : Nat) : BTState :=
  match plookup s.pages pid with
  | some (.leaf _ nx kvs) => { s with pages := pset s.pages pid (.leaf newParent nx kvs) }
  | some (.internal _ kcs) => { s with pages := pset s.pages pid (.internal newParent kcs) }
  | none => s

/-- Modelled from the spec: `BPlusTreeLeafPage::Lookup` — binary search for
the key in the sorted leaf, observationally a linear find. -/
def leafLookup (kvs : List (Nat × Nat)) (k : Nat) : Option Nat :=
  (kvs.find? (fun p => p.1 = k)).map (fun p => p.2)

/-- Modelled from the spec: `BPlusTreeLeafPage::Insert` — sorted insertion
that leaves the page unchanged when the key already exists (the tree detects
the duplicate by comparing sizes). -/
def leafInsertKV (k v : Nat) : List (Nat × Nat) → List (Nat × Nat)
  | [] => [(k, v)]
  | p :: t =>
      if k < p.1 then (k, v) :: p :: t
      else if k = p.1 then p :: t
      else p :: leafInsertKV k v t

/-- Modelled from the spec: `BPlusTreeLeafPage::RemoveAndDeleteRecord` —
removes the key's pair when present (the tree compares sizes to detect an
absent key). -/
def leafRemoveKV (kvs : List (Nat × Nat)) (k : Nat) : List (Nat × Nat) :=
  kvs.filter (fun p => p.1 ≠ k)

/-- Helper for `internalLookup`: walk the separator keys carrying the child
reached so far. -/
def internalLookupAux (k : Nat) : Nat → List (Nat × Nat) → Nat
  | child, [] => child
  | child, p :: t => if k < p.1 then child else internalLookupAux k p.2 t

/-- Modelled from the spec: `BPlusTreeInternalPage::Lookup` — descend to
`child_{i-1}` for the first separator `key_i > k` (keys in subtree `child_i`
are `≥ key_i`), to the last child when no separator exceeds `k`. -/
def internalLookup (kcs : List (Nat × Nat)) (k : Nat) : Nat :=
  match kcs with
  | [] => 0
  | c :: t => internalLookupAux k c.2 t

/-- Modelled from the spec: `BPlusTreeInternalPage::ValueIndex` — the index
of the child id inside the page (the page length when absent). -/
def valueIndexOf (kcs : List (Nat × Nat)) (pid : Nat) : Nat :=
  kcs.findIdx (fun p => p.2 = pid)

/-- `KeyAt`. -/
def keyAtIdx (kcs : List (Nat × Nat)) (i : Nat) : Nat := (kcs.getD i (0, 0)).1

/-- `ValueAt`. -/
def valueAtIdx (kcs : List (Nat × Nat)) (i : Nat) : Nat := (kcs.getD i (0, 0)).2

/-- `SetKeyAt`. -/
def setKeyAtIdx (kcs : List (Nat × Nat)) (i : Nat) (k : Nat) : List (Nat × Nat) :=
  kcs.set i (k, valueAtIdx kcs i)

/-- Modelled from the spec: `BPlusTreeInternalPage::InsertNodeAfter` —
"insert `(key, new_child_id)` immediately after `old_child_id`" (unchanged
when the old child is absent). -/
def insertNodeAfter (oldId k newId : Nat) : List (Nat × Nat) → List (Nat × Nat)
  | [] => []
  | p :: t => if p.2 = oldId then p :: (k, newId) :: t else p :: insertNodeAfter oldId k newId t

/-- Reparent every child referenced by `kids` to `newParent` — the effect of
the `Move…To` page methods on moved children (delegated to the buffer pool
in the C++). -/
def btReparentAll (s : BTState) (kids : List (Nat × Nat)) (newParent : Nat) : BTState :=
  kids.foldl (fun acc p => btSetParent acc p.2 newParent) s

/-- `FindLeaf`'s descent loop (latches elided): from `pid`, repeatedly follow
`Lookup` until a leaf page is reached.  Fuel bounds the descent. -/
def btFindLeafAux (s : BTState) (k : Nat) : Nat → Nat → Option Nat
  | 0, _ => none
  | fuel + 1, pid =>
      match plookup s.pages pid with
      | some (.leaf _ _ _) => some pid
      | some (.internal _ kcs) => btFindLeafAux s k fuel (internalLookup kcs k)
      | none => none

/-- `FindLeaf(key, op)`: start at `root_page_id_` (asserted valid). -/
def btFindLeaf (s : BTState) (k : Nat) : Option Nat :=
  if s.root = 0 then none else btFindLeafAux s k (s.pages.length + 1) s.root

/-- `GetValue`: descend to the leaf and `Lookup` the key. -/
def btGetValue (s : BTState) (k : Nat) : Option Nat :=
  (btFindLeaf s k).bind (fun lid =>
    match plookup s.pages lid with
    | some (.leaf _ _ kvs) => leafLookup kvs k
    | _ => none)

/-- `StartNewTree`: allocate a fresh leaf as root and insert the pair.  Note:
faithful to the source, no header-page record is written here (the C++
`StartNewTree` never calls `UpdateRootPageId`). -/
def btStartNewTree (s : BTState) (k v : Nat) : BTState :=
  let nid := s.nextId
  { s with
    root := nid
    nextId := nid + 1
    pages := pset s.pages nid (.leaf 0 0 [(k, v)]) }

/-- `InsertIntoParent`.  The root branch is faithful to the source bug: after
`PopulateNewRoot` it runs `old_node->SetParentPageId(new_root)` and then
`new_root->SetParentPageId(new_root->GetPageId())` — the new root's parent
becomes itself and `new_node` keeps the parent id it got from `Split` (the
old node's previous parent, i.e. `INVALID` when the root was split).
`UpdateRootPageId(0)` appends an `UpdateRecord`.  The full-parent branch
builds the oversize temporary image, splits it at the internal minimum size
and recurses. -/
def btInsertIntoParent (L I : Nat) : Nat → BTState → Nat → Nat → Nat → Option BTState
  | 0, _, _, _, _ => none
  | fuel + 1, s, oldId, key, newId =>
      match plookup s.pages oldId with
      | none => none
      | some oldPg =>
          if bpParent oldPg = 0 then
            let nid := s.nextId
            let s1 := { s with nextId := nid + 1, root := nid }
            let s2 := { s1 with pages := pset s1.pages nid (.internal 0 [(0, oldId), (key, newId)]) }
            let s3 := btSetParent s2 oldId nid
            let s4 := btSetParent s3 nid nid
            some { s4 with headerLog := s4.headerLog ++ [.hUpdate s4.root] }
          else
            let pid := bpParent oldPg
            match plookup s.pages pid with
            | some (.internal pp kcs) =>
                if kcs.length < I then
                  some { s with pages := pset s.pages pid (.internal pp (insertNodeAfter oldId key newId kcs)) }
                else
                  let tmp := insertNodeAfter oldId key newId kcs
                  let keep := tmp.take ((I + 1) / 2)
                  let moved := tmp.drop ((I + 1) / 2)
                  let sid := s.nextId
                  let newKey := keyAtIdx moved 0
                  let s1 := { s with nextId := sid + 1, pages := pset s.pages sid (.internal pp moved) }
                  let s2 := btReparentAll s1 moved sid
                  let s3 := { s2 with pages := pset s2.pages pid (.internal pp keep) }
                  btInsertIntoParent L I fuel s3 pid newKey sid
            | _ => none

/-- `InsertIntoLeaf`: find the target leaf, insert, split on overflow.  The
`Split` of a leaf initialises the sibling with the node's current parent id,
moves the upper half of the (post-insertion) entries, and links the sibling
into the leaf chain. -/
def btInsertIntoLeaf (L I fuel : Nat) (s : BTState) (k v : Nat) : Option (BTState × Bool) :=
  match btFindLeaf s k with
  | none => none
  | some lid =>
      match plookup s.pages lid with
      | some (.leaf lp lnext kvs) =>
          let kvs2 := leafInsertKV k v kvs
          if kvs2.length = kvs.length then some (s, false)
          else if kvs2.length < L then
            some ({ s with pages := pset s.pages lid (.leaf lp lnext kvs2) }, true)
          else
            let sid := s.nextId
            let keep := kvs2.take ((L + 1) / 2)
            let moved := kvs2.drop ((L + 1) / 2)
            let ukey := keyAtIdx moved 0
            let s1 := { s with nextId := sid + 1 }
            let s2 := { s1 with pages := pset s1.pages sid (.leaf lp lnext moved) }
            let s3 := { s2 with pages := pset s2.pages lid (.leaf lp sid keep) }
            (btInsertIntoParent L I fuel s3 lid ukey sid).map (fun s4 => (s4, true))
      | _ => none

/-- `Insert`: start a new tree when empty, otherwise `InsertIntoLeaf`. -/
def btInsert (L I fuel : Nat) (s : BTState) (k v : Nat) : Option (BTState × Bool) :=
  if s.root = 0 then some (btStartNewTree s k v, true)
  else btInsertIntoLeaf L I fuel s k v

/-- `AdjustRoot`: promote the only child of a size-1 internal root (writing
an `UpdateRecord`), or clear `root_page_id_` for an empty leaf root.  Returns
the "old root should be deleted" flag. -/
def btAdjustRoot (s : BTState) (rootId : Nat) : Bool × BTState :=
  match plookup s.pages rootId with
  | some (.internal _ kcs) =>
      if kcs.length = 1 then
        let childId := valueAtIdx kcs 0
        let s1 := btSetParent s childId 0
        let s2 := { s1 with root := childId }
        (true, { s2 with headerLog := s2.headerLog ++ [.hUpdate childId] })
      else (false, s)
  | some (.leaf _ _ kvs) =>
      if kvs.length = 0 then (true, { s with root := 0 }) else (false, s)
  | none => (false, s)

/-- `Coalesce` without its final recursive `CoalesceOrRedistribute(parent)`
call: move all of `node`'s entries into `neighbor` (`MoveAllTo`; for leaves
the recipient inherits the node's `next_page_id`, for internal pages the
separator `parent.KeyAt(index)` is pulled down onto the node's first child
and the moved children are reparented), then `parent->Remove(index)`. -/
def btCoalesceMove (s : BTState) (neighborId nodeId parentId index : Nat) : Option BTState :=
  match plookup s.pages parentId with
  | some (.internal pp kcs) =>
      let middleKey := keyAtIdx kcs index
      let afterMove : Option BTState :=
        match plookup s.pages neighborId, plookup s.pages nodeId with
        | some (.leaf np _ nkvs), some (.leaf dp dn dkvs) =>
            let s1 := { s with pages := pset s.pages neighborId (.leaf np dn (nkvs ++ dkvs)) }
            some { s1 with pages := pset s1.pages nodeId (.leaf dp dn []) }
        | some (.internal np nkcs), some (.internal dp dkcs) =>
            let movedEntries :=
              match dkcs with
              | [] => []
              | c0 :: t => (middleKey, c0.2) :: t
            let s1 := { s with pages := pset s.pages neighborId (.internal np (nkcs ++ movedEntries)) }
            let s2 := btReparentAll s1 movedEntries neighborId
            some { s2 with pages := pset s2.pages nodeId (.internal dp []) }
        | _, _ => none
      afterMove.map (fun s2 =>
        match plookup s2.pages parentId with
        | some (BPage.internal pp2 kcs2) =>
            { s2 with pages := pset s2.pages parentId (.internal pp2 (kcs2.eraseIdx index)) }
        | _ => { s2 with pages := pset s2.pages parentId (.internal pp (kcs.eraseIdx index)) })
  | _ => none

/-- `Redistribute`: move one pair from `neighbor` into `node` and patch the
separator key in the parent, faithful to the source (which reads
`neighbor->KeyAt(0)` after the move in every branch).  Internal moves pull
the separator down and reparent the moved child. -/
def btRedistribute (s : BTState) (neighborId nodeId parentId index : Nat) (fromPrev : Bool) : BTState :=
  match plookup s.pages parentId with
  | some (.internal pp kcs) =>
      (match plookup s.pages neighborId, plookup s.pages nodeId with
      | some (.leaf np nn nkvs), some (.leaf dp dn dkvs) =>
          if !fromPrev then
            match nkvs with
            | [] => s
            | h :: t =>
                let s1 := { s with pages := pset s.pages nodeId (.leaf dp dn (dkvs ++ [h])) }
                let s2 := { s1 with pages := pset s1.pages neighborId (.leaf np nn t) }
                { s2 with pages := pset s2.pages parentId (.internal pp (setKeyAtIdx kcs (index + 1) (keyAtIdx t 0))) }
          else
            match nkvs.getLast? with
            | none => s
            | some h =>
                let t := nkvs.dropLast
                let s1 := { s with pages := pset s.pages nodeId (.leaf dp dn (h :: dkvs)) }
                let s2 := { s1 with pages := pset s1.pages neighborId (.leaf np nn t) }
                { s2 with pages := pset s2.pages parentId (.internal pp (setKeyAtIdx kcs index (keyAtIdx t 0))) }
      | some (.internal np nkcs), some (.internal dp dkcs) =>
          if !fromPrev then
            match nkcs with
            | [] => s
            | h :: t =>
                let s1 := { s with pages := pset s.pages nodeId (.internal dp (dkcs ++ [(keyAtIdx kcs (index + 1), h.2)])) }
                let s2 := btSetParent s1 h.2 nodeId
                let s3 := { s2 with pages := pset s2.pages neighborId (.internal np t) }
                { s3 with pages := pset s3.pages parentId (.internal pp (setKeyAtIdx kcs (index + 1) (keyAtIdx t 0))) }
          else
            match nkcs.getLast? with
            | none => s
            | some h =>
                let t := nkcs.dropLast
                let s1 := { s with pages := pset s.pages nodeId (.internal dp ((0, h.2) :: setKeyAtIdx dkcs 0 (keyAtIdx kcs index))) }
                let s2 := btSetParent s1 h.2 nodeId
                let s3 := { s2 with pages := pset s2.pages neighborId (.internal np t) }
                { s3 with pages := pset s3.pages parentId (.internal pp (setKeyAtIdx kcs index (keyAtIdx t 0))) }
      | _, _ => s)
  | _ => s

/-- The right-sibling section of `CoalesceOrRedistribute` — reached both when
`index == 0` and, by the source's fall-through, after a left-sibling coalesce
whose recursive call returned `false`.  `recur` is the recursive
`CoalesceOrRedistribute` invocation performed inside `Coalesce`. -/
def btCoRRight (L I : Nat) (recur : BTState → Nat → Option (Bool × BTState × List Nat))
    (s : BTState) (nid pid index : Nat) (dels0 : List Nat) : Option (Bool × BTState × List Nat) :=
  match plookup s.pages pid with
  | some (.internal _ kcsNow) =>
      if index = kcsNow.length - 1 then some (false, s, dels0)
      else
        let sibId := valueAtIdx kcsNow (index + 1)
        match plookup s.pages sibId with
        | none => none
        | some sib =>
            if bpMinSize L I sib < bpSize sib then
              some (false, btRedistribute s sibId nid pid index false, dels0)
            else
              let sibIdx := valueIndexOf kcsNow sibId
              match btCoalesceMove s nid sibId pid sibIdx with
              | none => none
              | some s1 =>
                  match recur s1 pid with
                  | none => none
                  | some (pdel, s2, dels) =>
                      some (false, s2, dels0 ++ dels ++ [sibId] ++ (if pdel then [pid] else []))
  | _ => none

/-- `CoalesceOrRedistribute`: root pages go to `AdjustRoot`; then the
source's early-out compares the node's size against `GetMaxSize()` (not the
minimum size); otherwise prefer the left sibling (`index > 0`), falling back
— or falling *through*, when the left coalesce's recursive call returned
`false` — to the right-sibling section.  Returns the "this node should be
deleted" flag, the new state, and the accumulated deleted-page set. -/
def btCoR (L I : Nat) : Nat → BTState → Nat → Option (Bool × BTState × List Nat)
  | 0, _, _ => none
  | fuel + 1, s, nid =>
      match plookup s.pages nid with
      | none => none
      | some node =>
          if bpParent node = 0 then
            let r := btAdjustRoot s nid
            some (r.1, r.2, [])
          else if bpMaxSize L I node ≤ bpSize node then some (false, s, [])
          else
            let pid := bpParent node
            match plookup s.pages pid with
            | some (.internal _ kcs) =>
                let index := valueIndexOf kcs nid
                if 0 < index then
                  let sibId := valueAtIdx kcs (index - 1)
                  match plookup s.pages sibId with
                  | none => none
                  | some sib =>
                      if bpMinSize L I sib < bpSize sib then
                        some (false, btRedistribute s sibId nid pid index true, [])
                      else
                        match btCoalesceMove s sibId nid pid index with
                        | none => none
                        | some s1 =>
                            match btCoR L I fuel s1 pid with
                            | none => none
                            | some (flag, s2, dels) =>
                                if flag then some (true, s2, dels ++ [pid])
                                else btCoRRight L I (btCoR L I fuel) s2 nid pid index dels
                else btCoRRight L I (btCoR L I fuel) s nid pid index []
            | _ => none

/-- Drain the transaction's deleted-page set: `DeletePage` each id. -/
def btApplyDeletes (s : BTState) (dels : List Nat) : BTState :=
  { s with pages := s.pages.filter (fun p => !(dels.contains p.1)) }

/-- `Remove`: empty tree is a no-op; find the leaf, delete the record (size
comparison detects an absent key), always call `CoalesceOrRedistribute` on
the leaf, queue the leaf when it reports deletion, then drain the
deleted-page set. -/
def btRemoveKey (L I fuel : Nat) (s : BTState) (k : Nat) : Option BTState :=
  if s.root = 0 then some s
  else
    match btFindLeaf s k with
    | none => none
    | some lid =>
        match plookup s.pages lid with
        | some (.leaf lp ln kvs) =>
            let kvs2 := leafRemoveKV kvs k
            if kvs2.length = kvs.length then some s
            else
              let s1 := { s with pages := pset s.pages lid (.leaf lp ln kvs2) }
              match btCoR L I fuel s1 lid with
              | none => none
              | some (flag, s2, dels) =>
                  some (btApplyDeletes s2 (dels ++ (if flag then [lid] else [])))
        | _ => none

/-- Public B+Tree calls, for running traces. -/
inductive BTOp where
  | ins (k v : Nat)
  | del (k : Nat)
deriving DecidableEq

/-- One public call (the `Insert` boolean result is dropped by the runner). -/
def btStep (L I fuel : Nat) (s : BTState) : BTOp → Option BTState
  | .ins k v => (btInsert L I fuel s k v).map (fun r => r.1)
  | .del k => btRemoveKey L I fuel s k

/-- Run a trace of public calls from an empty tree. -/
def btRun (L I fuel : Nat) (ops : List BTOp) : Option BTState :=
  ops.foldl (fun acc op => acc.bind (fun s => btStep L I fuel s op)) (some btEmpty)

/-! ## B+Tree claims -/

/-- The insertion trace for C1: six `Insert` calls with pairwise distinct
keys `1..6` (values `10·k`), on a tree with `leaf_max_size = 4`,
`internal_max_size = 4`. -/
def btOpsC1 : List BTOp :=
  [.ins 1 10, .ins 2 20, .ins 3 30, .ins 4 40, .ins 5 50, .ins 6 60]

/-- The tree state the code reaches after `btOpsC1`. -/
def btStateC1 : BTState := (btRun 4 4 20 btOpsC1).getD btEmpty

/-- C1: the round-trip property fails on the code.  After inserting the six
pairwise distinct keys `1..6` (no `Remove` at all), `GetValue(1)` and
`GetValue(2)` return false.  Cause: the root-split branch of
`InsertIntoParent` reparents `new_root` to itself instead of reparenting
`new_node`, so the first split's right sibling (page 2) keeps
`parent_id = INVALID`; when that sibling splits on inserting 6, it is
mistaken for the root and a fresh root (page 5) is installed whose subtree no
longer contains keys 1 and 2. -/
theorem c1_roundtrip_violated :
    btRun 4 4 20 btOpsC1 = some btStateC1 ∧
    btGetValue btStateC1 1 = none ∧
    btGetValue btStateC1 2 = none ∧
    btGetValue btStateC1 3 = some 30 ∧
    btGetValue btStateC1 6 = some 60 ∧
    btStateC1.root = 5 := by
  refine ⟨rfl, rfl, rfl, rfl, rfl, rfl⟩

/-- The first-root-split trace for C5: inserting `1..4` with
`leaf_max_size = 4` makes the initial leaf split and `InsertIntoParent`
allocate the first internal root. -/
def btStateC5 : BTState :=
  (btRun 4 4 20 [.ins 1 10, .ins 2 20, .ins 3 30, .ins 4 40]).getD btEmpty

/-- C5: on the root split the code's new root (page 3) does hold the two
children `(old, new) = (1, 2)` with the split key `3` at index 1, the old
child is reparented to it and `root_page_id` is updated — but the new root's
own `parent_id` is set to *itself* (3, not `INVALID = 0`), and the new right
child (page 2) keeps `parent_id = INVALID` instead of pointing at the new
root: the source reparents `new_root` where it should reparent `new_node`. -/
theorem c5_root_split_parent_ids :
    btRun 4 4 20 [.ins 1 10, .ins 2 20, .ins 3 30, .ins 4 40] = some btStateC5 ∧
    btStateC5.root = 3 ∧
    plookup btStateC5.pages 3 = some (.internal 3 [(0, 1), (3, 2)]) ∧
    plookup btStateC5.pages 1 = some (.leaf 3 2 [(1, 10), (2, 20)]) ∧
    plookup btStateC5.pages 2 = some (.leaf 0 0 [(3, 30), (4, 40)]) ∧
    (plookup btStateC5.pages 3).map bpParent ≠ some 0 ∧
    (plookup btStateC5.pages 2).map bpParent ≠ some 3 := by
  refine ⟨rfl, rfl, rfl, rfl, rfl, by decide, by decide⟩

/-- The state after the first `Insert` into an empty tree. -/
def btStateC6 : BTState := (btRun 4 4 20 [.ins 1 10]).getD btEmpty

/-- C6: on the first creation of a root the code writes **no** header-page
record at all — `StartNewTree` never calls `UpdateRootPageId`, so no
`InsertRecord(index_name, root_page_id)` is issued (and the only header calls
the tree ever makes are `UpdateRecord`s from `InsertIntoParent` /
`AdjustRoot`, since every call site passes `insert_record = 0`). -/
theorem c6_no_insert_record_on_first_root :
    btRun 4 4 20 [.ins 1 10] = some btStateC6 ∧
    btStateC6.root = 1 ∧
    btStateC6.headerLog = [] := by
  refine ⟨rfl, rfl, rfl⟩

/-- The C3 trace: build leaves `[(0,7),(1,10),(2,20)]` and
`[(3,30),(4,40),(5,50)]` under root page 3, then `Remove(0)`. -/
def btOpsC3 : List BTOp :=
  [.ins 1 10, .ins 2 20, .ins 3 30, .ins 4 40, .ins 0 7, .ins 5 50]

/-- State before the `Remove(0)`. -/
def btStateC3a : BTState := (btRun 4 4 20 btOpsC3).getD btEmpty

/-- State after the `Remove(0)`. -/
def btStateC3b : BTState := (btRun 4 4 20 (btOpsC3 ++ [.del 0])).getD btEmpty

/-- C3: the Remove frame condition fails on the code.  Deleting key 0 leaves
the target leaf (page 1) with 2 entries, exactly its `min_size`
(`⌈4/2⌉ = 2`), so the claim requires no structural change; but
`CoalesceOrRedistribute`'s early-out compares against `GetMaxSize()` instead
of the minimum size, so the code redistributes anyway: the sibling leaf
(page 2) loses its first pair `(3,30)` to the target leaf and the parent's
separator key changes from 3 to 4 — pages other than the target leaf are
modified. -/
theorem c3_remove_frame_violated :
    btRun 4 4 20 btOpsC3 = some btStateC3a ∧
    btRun 4 4 20 (btOpsC3 ++ [.del 0]) = some btStateC3b ∧
    plookup btStateC3a.pages 1 = some (.leaf 3 2 [(0, 7), (1, 10), (2, 20)]) ∧
    (leafRemoveKV [(0, 7), (1, 10), (2, 20)] 0).length = 2 ∧
    bpMinSize 4 4 (.leaf 3 2 [(1, 10), (2, 20)]) = 2 ∧
    plookup btStateC3b.pages 1 = some (.leaf 3 2 [(1, 10), (2, 20), (3, 30)]) ∧
    plookup btStateC3a.pages 2 = some (.leaf 0 0 [(3, 30), (4, 40), (5, 50)]) ∧
    plookup btStateC3b.pages 2 = some (.leaf 0 0 [(4, 40), (5, 50)]) ∧
    plookup btStateC3a.pages 3 = some (.internal 3 [(0, 1), (3, 2)]) ∧
    plookup btStateC3b.pages 3 = some (.internal 3 [(0, 1), (4, 2)]) := by
  refine ⟨rfl, rfl, rfl, rfl, rfl, rfl, rfl, rfl, rfl, rfl⟩

/-! # Extendible hash table (`extendible_hash_table.cpp`)

Buckets are `shared_ptr`s aliased by several directory slots, so the model
keeps an append-only arena `buckets` of bucket contents and a directory
`dir` of arena indices; `dir_[i] == tar_bucket` (pointer equality) becomes
equality of arena indices.  Keys and values are `Nat`; `std::hash<K>` is an
arbitrary parameter `hsh : Nat → Nat`.  `IndexOf`'s
`hash(key) & ((1 << global_depth) - 1)` is `hsh key % 2 ^ gd`, and the
rehash / redirect tests `x & (1 << depth) != 0` are `Nat.testBit x depth`.
-/
structure EBucket where
  items : List (Nat × Nat)
  depth : Nat
deriving DecidableEq

/-- Whole-table state: `global_depth_`, the directory of bucket ids, the
bucket arena, and the cached `num_buckets_`. -/
structure EHT where
  gd : Nat
  dir : List Nat
  buckets : List EBucket
  nb : Nat
deriving DecidableEq

/-- `ExtendibleHashTable(bucket_size)`: one empty bucket of local depth 0. -/
def ehtInit : EHT := ⟨0, [0], [⟨[], 0⟩], 1⟩

/-- `IndexOf(key) = hash(key) & ((1 << global_depth) - 1)`. -/
def ehtIndexOf (hsh : Nat → Nat) (gd k : Nat) : Nat := hsh k % 2 ^ gd

/-- Read a directory slot. -/
def ehtDirAt (s : EHT) (i : Nat) : Nat := s.dir.getD i 0

/-- Dereference a bucket id in the arena. -/
def ehtBucketAt (s : EHT) (bid : Nat) : EBucket := s.buckets.getD bid ⟨[], 0⟩

/-- The bucket `dir_[IndexOf(key)]` currently points at. -/
def ehtTarget (hsh : Nat → Nat) (s : EHT) (k : Nat) : EBucket :=
  ehtBucketAt s (ehtDirAt s (ehtIndexOf hsh s.gd k))

/-- `Bucket::Find`: linear scan for the key. -/
def ebFind (items : List (Nat × Nat)) (k : Nat) : Option Nat :=
  (items.find? (fun p => p.1 = k)).map (fun p => p.2)

/-- `Bucket::Remove`: `Find` the value, then `list_.remove({key, val})`
(removes every pair equal to `(key, val)`); no-op when absent. -/
def ebRemove (items : List (Nat × Nat)) (k : Nat) : List (Nat × Nat) :=
  match ebFind items k with
  | none => items
  | some v => items.filter (fun p => p ≠ (k, v))

/-- The in-place update loop of `Bucket::Insert`: overwrite the value of the
first pair carrying the key. -/
def ebReplaceFirst (k v : Nat) : List (Nat × Nat) → List (Nat × Nat)
  | [] => []
  | p :: t => if p.1 = k then (k, v) :: t else p :: ebReplaceFirst k v t

/-- Modelled from the spec: `Bucket::IsFull` (declared in the missing header
`extendible_hash_table.h`) — a bucket is full when it holds
`bucket_capacity` pairs. -/
def ebIsFull (bsize : Nat) (items : List (Nat × Nat)) : Bool :=
  bsize ≤ items.length

/-- `Bucket::Insert`: update in place when the key exists, fail (drop the
pair) when full, otherwise append at the back. -/
def ebInsert (bsize : Nat) (items : List (Nat × Nat)) (k v : Nat) : List (Nat × Nat) :=
  if (items.find? (fun p => p.1 = k)).isSome then ebReplaceFirst k v items
  else if ebIsFull bsize items then items
  else items ++ [(k, v)]

/-- One iteration of `Insert`'s split loop: recompute `index`, `tar_bucket`
and `mask = 1 << tar_bucket->GetDepth()`; double the directory when the
local depth has reached the global depth; allocate `bucket0`/`bucket1` of
depth `d+1`; rehash the target's pairs by bit `d` of their hash; redirect
every directory slot `j` holding the target to `bucket1` when bit `d` of `j`
is set and to `bucket0` otherwise; bump `num_buckets_`. -/
def ehtSplitStep (bsize : Nat) (hsh : Nat → Nat) (k : Nat) (s : EHT) : EHT :=
  let i := ehtIndexOf hsh s.gd k
  let tid := ehtDirAt s i
  let tar := ehtBucketAt s tid
  let gd2 := if tar.depth = s.gd then s.gd + 1 else s.gd
  let dirD := if tar.depth = s.gd then s.dir ++ s.dir else s.dir
  let id0 := s.buckets.length
  let id1 := id0 + 1
  let pr := tar.items.foldl
    (fun (acc : List (Nat × Nat) × List (Nat × Nat)) p =>
      if (hsh p.1).testBit tar.depth then (acc.1, ebInsert bsize acc.2 p.1 p.2)
      else (ebInsert bsize acc.1 p.1 p.2, acc.2))
    ([], [])
  let dir2 := dirD.enum.map
    (fun q => if q.2 = tid then (if q.1.testBit tar.depth then id1 else id0) else q.2)
  { gd := gd2
    dir := dir2
    buckets := s.buckets ++ [⟨pr.1, tar.depth + 1⟩, ⟨pr.2, tar.depth + 1⟩]
    nb := s.nb + 1 }

/-- `Insert`'s split loop `while (dir_[IndexOf(key)]->IsFull()) { ... }`,
with fuel; `none` means the loop was still running when the fuel ran out. -/
def ehtLoop (bsize : Nat) (hsh : Nat → Nat) : Nat → Nat → EHT → Option EHT
  | 0, _, _ => none
  | fuel + 1, k, s =>
      if ebIsFull bsize (ehtTarget hsh s k).items then
        ehtLoop bsize hsh fuel k (ehtSplitStep bsize hsh k s)
      else some s

/-- The tail of `Insert` after the split loop: re-read the target slot and
`Bucket::Insert` the pair there. -/
def ehtFinishInsert (bsize : Nat) (hsh : Nat → Nat) (s : EHT) (k v : Nat) : EHT :=
  let tid := ehtDirAt s (ehtIndexOf hsh s.gd k)
  let tar := ehtBucketAt s tid
  { s with buckets := s.buckets.set tid ⟨ebInsert bsize tar.items k v, tar.depth⟩ }

/-- `ExtendibleHashTable::Insert`: upsert semantics — same value present is a
no-op, a different value is first removed from the target bucket — followed
by the split loop and the final bucket insertion. -/
def ehtInsert (bsize : Nat) (hsh : Nat → Nat) (fuel : Nat) (s : EHT) (k v : Nat) : Option EHT :=
  let tid := ehtDirAt s (ehtIndexOf hsh s.gd k)
  let tar := ehtBucketAt s tid
  match ebFind tar.items k with
  | some val =>
      if val = v then some s
      else
        let s1 := { s with buckets := s.buckets.set tid ⟨ebRemove tar.items k, tar.depth⟩ }
        (ehtLoop bsize hsh fuel k s1).map (fun s2 => ehtFinishInsert bsize hsh s2 k v)
  | none => (ehtLoop bsize hsh fuel k s).map (fun s2 => ehtFinishInsert bsize hsh s2 k v)

/-- `ExtendibleHashTable::Find`. -/
def ehtFind (hsh : Nat → Nat) (s : EHT) (k : Nat) : Option Nat :=
  ebFind (ehtTarget hsh s k).items k

/-- `ExtendibleHashTable::Remove`. -/
def ehtRemoveOp (hsh : Nat → Nat) (s : EHT) (k : Nat) : EHT :=
  let tid := ehtDirAt s (ehtIndexOf hsh s.gd k)
  let tar := ehtBucketAt s tid
  { s with buckets := s.buckets.set tid ⟨ebRemove tar.items k, tar.depth⟩ }

/-- Public hash-table calls, for running traces. -/
inductive EOp where
  | ins (k v : Nat)
  | rm (k : Nat)
deriving DecidableEq

/-- One public call. -/
def ehtStep (bsize : Nat) (hsh : Nat → Nat) (fuel : Nat) (s : EHT) : EOp → Option EHT
  | .ins k v => ehtInsert bsize hsh fuel s k v
  | .rm k => some (ehtRemoveOp hsh s k)

/-- Run a trace of public calls from a fresh table. -/
def ehtRun (bsize : Nat) (hsh : Nat → Nat) (fuel : Nat) (ops : List EOp) : Option EHT :=
  ops.foldl (fun acc op => acc.bind (fun s => ehtStep bsize hsh fuel s op)) (some ehtInit)

/-- Number of entries carrying key `k` in a pair list. -/
def countKey (items : List (Nat × Nat)) (k : Nat) : Nat :=
  (items.filter (fun p => p.1 = k)).length

/-- Total number of entries carrying key `k` across all *distinct* buckets
reachable from the directory (aliased slots counted once). -/
def ehtOccs (s : EHT) (k : Nat) : Nat :=
  (s.dir.dedup.map (fun bid => countKey (ehtBucketAt s bid).items k)).sum

/-- Bit-agreement of a stored key's hash with the inserted key's hash on the
`m` bits starting at bit `d`. -/
def ehtAgreeKey (hsh : Nat → Nat) (k d m : Nat) (x : Nat) : Bool :=
  (hsh x / 2 ^ d) % 2 ^ m == (hsh k / 2 ^ d) % 2 ^ m

/-- Bit-agreement of a stored pair's hash with the inserted key's hash on
the `m` bits starting at bit `d`: the pairs a chain of `m` further splits
cannot separate from the key. -/
def ehtAgree (hsh : Nat → Nat) (k d m : Nat) (p : Nat × Nat) : Bool :=
  ehtAgreeKey hsh k d m p.1

/-! ## Generic list helpers -/

theorem listGetDAppendLeft (l : List α) (l2 : List α) (n : Nat) (d : α)
    (h : n < l.length) : (l ++ l2).getD n d = l.getD n d := by
  induction l generalizing n with
  | nil => simp at h
  | cons a t ih =>
      cases n with
      | zero => rfl
      | succ m =>
          simp only [List.cons_append, List.getD_cons_succ]
          exact ih m (by simpa using h)

theorem listGetDAppendRight (l : List α) (l2 : List α) (n : Nat) (d : α)
    (h : l.length ≤ n) : (l ++ l2).getD n d = l2.getD (n - l.length) d := by
  induction l generalizing n with
  | nil => simp
  | cons a t ih =>
      cases n with
      | zero => simp at h
      | succ m =>
          simp only [List.cons_append, List.getD_cons_succ, List.length_cons]
          rw [ih m (by simpa using h)]
          simp [Nat.succ_sub_succ]

theorem listGetDMem (l : List α) (n : Nat) (d : α) (h : n < l.length) :
    l.getD n d ∈ l := by
  induction l generalizing n with
  | nil => simp at h
  | cons a t ih =>
      cases n with
      | zero => simp
      | succ m =>
          simp only [List.getD_cons_succ]
          exact List.mem_cons_of_mem a (ih m (by simpa using h))

theorem listGetDSetEq (l : List α) (i : Nat) (a d : α) (h : i < l.length) :
    (l.set i a).getD i d = a := by
  induction l generalizing i with
  | nil => simp at h
  | cons x t ih =>
      cases i with
      | zero => rfl
      | succ m =>
          simp only [List.set_cons_succ, List.getD_cons_succ]
          exact ih m (by simpa using h)

theorem listGetDSetNe (l : List α) (i j : Nat) (a d : α) (h : i ≠ j) :
    (l.set i a).getD j d = l.getD j d := by
  induction l generalizing i j with
  | nil => simp
  | cons x t ih =>
      cases i with
      | zero =>
          cases j with
          | zero => exact absurd rfl h
          | succ m => rfl
      | succ m =>
          cases j with
          | zero => rfl
          | succ m2 =>
              simp only [List.set_cons_succ, List.getD_cons_succ]
              exact ih m m2 (by omega)

theorem listGetDEnumFromMap (f : Nat × α → β) (l : List α) (i n : Nat) (d : β) (da : α)
    (h : n < l.length) : ((l.enumFrom i).map f).getD n d = f (i + n, l.getD n da) := by
  induction l generalizing i n with
  | nil => simp at h
  | cons a t ih =>
      cases n with
      | zero => simp [List.enumFrom]
      | succ m =>
          simp only [List.enumFrom, List.map_cons, List.getD_cons_succ]
          rw [ih (i + 1) m (by simpa using h)]
          congr 2
          omega

theorem listGetDEnumMap (f : Nat × α → β) (l : List α) (n : Nat) (d : β) (da : α)
    (h : n < l.length) : ((l.enum.map f).getD n d) = f (n, l.getD n da) := by
  have := listGetDEnumFromMap f l 0 n d da h
  simpa [List.enum] using this

theorem listGetDDouble (l : List α) (g n : Nat) (d : α)
    (hl : l.length = 2 ^ g) (hn : n < 2 ^ (g + 1)) :
    (l ++ l).getD n d = l.getD (n % 2 ^ g) d := by
  have hp : 2 ^ (g + 1) = 2 ^ g * 2 := pow_succ 2 g
  by_cases h : n < 2 ^ g
  · rw [listGetDAppendLeft l l n d (by omega), Nat.mod_eq_of_lt h]
  · have h2 : 2 ^ g ≤ n := le_of_not_lt h
    rw [listGetDAppendRight l l n d (by omega)]
    congr 1
    rw [hl, Nat.mod_eq_sub_mod h2, Nat.mod_eq_of_lt (by omega)]

theorem listGetDAppendSelf (l : List α) (x y : α) (d : α) :
    (l ++ [x, y]).getD l.length d = x := by
  rw [listGetDAppendRight l [x, y] l.length d (le_refl _)]
  simp

theorem listGetDAppendSelfSucc (l : List α) (x y : α) (d : α) :
    (l ++ [x, y]).getD (l.length + 1) d = y := by
  rw [listGetDAppendRight l [x, y] (l.length + 1) d (by omega)]
  simp

/-! ## C9: divergence of the split loop on a full-hash collision -/

/-- A hash function on which two distinct keys collide on every bit — as
`std::hash` can do for pointer or string keys. -/
def hshZero : Nat → Nat := fun _ => 0

/-- A reachable table: `bucket_size = 1`, one `Insert(1, 1)` performed. -/
def ehtStateC9 : EHT := (ehtRun 1 hshZero 5 [.ins 1 1]).getD ehtInit

theorem c9stuckAux (s : EHT) (h1 : s.dir ≠ []) (h2 : (ehtTarget hshZero s 2).items = [(1, 1)]) :
    ebIsFull 1 (ehtTarget hshZero s 2).items = true ∧
    (ehtSplitStep 1 hshZero 2 s).dir ≠ [] ∧
    (ehtTarget hshZero (ehtSplitStep 1 hshZero 2 s) 2).items = [(1, 1)] := by
  obtain ⟨a, t, hdir⟩ : ∃ a t, s.dir = a :: t := by
    cases hdm : s.dir with
    | nil => exact absurd hdm h1
    | cons a t => exact ⟨a, t, rfl⟩
  have hidx : ehtIndexOf hshZero s.gd 2 = 0 := by simp [ehtIndexOf, hshZero]
  have htid : ehtDirAt s (ehtIndexOf hshZero s.gd 2) = a := by
    rw [hidx]; simp [ehtDirAt, hdir]
  refine ⟨by rw [h2]; rfl, ?_, ?_⟩
  · simp only [ehtSplitStep, htid]
    split <;> simp [hdir, List.enumFrom]
  · have hpr : (ehtTarget hshZero s 2).items.foldl
        (fun (acc : List (Nat × Nat) × List (Nat × Nat)) p =>
          if (hshZero p.1).testBit (ehtTarget hshZero s 2).depth then
            (acc.1, ebInsert 1 acc.2 p.1 p.2)
          else (ebInsert 1 acc.1 p.1 p.2, acc.2))
        ([], []) = ([(1, 1)], []) := by
      rw [h2]
      simp [hshZero, Nat.zero_testBit, ebInsert, ebFind, ebIsFull]
    simp only [ehtSplitStep, htid, ehtTarget] at hpr ⊢
    rw [hpr]
    have hidx2 : ∀ g2 : Nat, ehtIndexOf hshZero g2 2 = 0 := by
      intro g2; simp [ehtIndexOf, hshZero]
    split
    · simp only [hidx2, ehtDirAt, hdir, List.cons_append, List.enum]
      simp only [List.enumFrom, List.map_cons, List.getD_cons_zero, if_pos rfl,
        Nat.zero_testBit, Bool.false_eq_true, if_neg (by simp : ¬False)]
      simp only [ehtBucketAt, if_true]
      rw [listGetDAppendSelf]
    · simp only [hidx2, ehtDirAt, hdir, List.enum]
      simp only [List.enumFrom, List.map_cons, List.getD_cons_zero, if_pos rfl,
        Nat.zero_testBit, Bool.false_eq_true, if_neg (by simp : ¬False)]
      simp only [ehtBucketAt, if_true]
      rw [listGetDAppendSelf]

theorem c9stuckLoop : ∀ (n : Nat) (s : EHT), s.dir ≠ [] →
    (ehtTarget hshZero s 2).items = [(1, 1)] → ehtLoop 1 hshZero n 2 s = none := by
  intro n
  induction n with
  | zero => intro s _ _; rfl
  | succ m ih =>
      intro s h1 h2
      obtain ⟨hfull, h1s, h2s⟩ := c9stuckAux s h1 h2
      simp only [ehtLoop, hfull, if_true]
      exact ih (ehtSplitStep 1 hshZero 2 s) h1s h2s

/-- C9 counterexample: the split loop of `Insert` does *not* terminate for
every table state and key.  With `bucket_size = 1` and a hash on which keys
1 and 2 collide on every bit, the reachable state after `Insert(1,1)` makes
`Insert(2,2)` split forever: each split sends the colliding pair and the new
key to the same child bucket, so the target slot stays full at every
iteration (for every fuel bound the loop is still running). -/
theorem c9_split_loop_diverges :
    ehtRun 1 hshZero 5 [.ins 1 1] = some ehtStateC9 ∧
    (ehtTarget hshZero ehtStateC9 2).items = [(1, 1)] ∧
    (∀ n, ehtLoop 1 hshZero n 2 ehtStateC9 = none) ∧
    (∀ n, ehtInsert 1 hshZero n ehtStateC9 2 2 = none) := by
  have hloop : ∀ n, ehtLoop 1 hshZero n 2 ehtStateC9 = none := fun n =>
    c9stuckLoop n ehtStateC9 (by decide) (by decide)
  refine ⟨rfl, by decide, hloop, ?_⟩
  intro n
  have hfind : ebFind (ehtTarget hshZero ehtStateC9 2).items 2 = none := by decide
  simp only [ehtInsert]
  rw [show ehtBucketAt ehtStateC9 (ehtDirAt ehtStateC9 (ehtIndexOf hshZero ehtStateC9.gd 2)) =
      ehtTarget hshZero ehtStateC9 2 from rfl, hfind, hloop n]
  rfl

/-! ## Split-step structure lemmas -/

/-- Fold `Bucket::Insert` over a list of pairs (the rehash loop restricted to
one of the two receiving buckets). -/
def ebInsertAll (bsize : Nat) (acc l : List (Nat × Nat)) : List (Nat × Nat) :=
  l.foldl (fun a p => ebInsert bsize a p.1 p.2) acc

theorem foldRoutePair (bsize : Nat) (route : Nat × Nat → Bool) (l : List (Nat × Nat)) :
    ∀ a0 a1 : List (Nat × Nat),
    l.foldl (fun (acc : List (Nat × Nat) × List (Nat × Nat)) p =>
      if route p then (acc.1, ebInsert bsize acc.2 p.1 p.2)
      else (ebInsert bsize acc.1 p.1 p.2, acc.2)) (a0, a1)
    = (ebInsertAll bsize a0 (l.filter (fun p => !route p)),
       ebInsertAll bsize a1 (l.filter route)) := by
  induction l with
  | nil => intro a0 a1; rfl
  | cons p t ih =>
      intro a0 a1
      by_cases hr : route p
      · simp only [List.foldl_cons, hr, if_true, List.filter_cons, Bool.not_true,
          Bool.false_eq_true, ih, ebInsertAll]
        simp [hr]
      · simp only [List.foldl_cons, hr, if_false, List.filter_cons, Bool.not_false, ih,
          ebInsertAll]
        simp [hr]

theorem ehtSplitGd (bsize : Nat) (hsh : Nat → Nat) (k : Nat) (s : EHT) :
    (ehtSplitStep bsize hsh k s).gd =
      (if (ehtTarget hsh s k).depth = s.gd then s.gd + 1 else s.gd) := rfl

theorem ehtSplitDirLen (bsize : Nat) (hsh : Nat → Nat) (k : Nat) (s : EHT) :
    (ehtSplitStep bsize hsh k s).dir.length =
      (if (ehtTarget hsh s k).depth = s.gd then s.dir.length + s.dir.length
       else s.dir.length) := by
  simp only [ehtSplitStep, ehtTarget, List.length_map, List.enum_length]
  split <;> simp

theorem ehtSplitLen (bsize : Nat) (hsh : Nat → Nat) (k : Nat) (s : EHT)
    (hlen : s.dir.length = 2 ^ s.gd) :
    (ehtSplitStep bsize hsh k s).dir.length = 2 ^ (ehtSplitStep bsize hsh k s).gd := by
  rw [ehtSplitDirLen, ehtSplitGd]
  split
  · rw [hlen, pow_succ]; omega
  · exact hlen

theorem ehtSplitBuckets (bsize : Nat) (hsh : Nat → Nat) (k : Nat) (s : EHT) :
    (ehtSplitStep bsize hsh k s).buckets =
      s.buckets ++
        [⟨ebInsertAll bsize []
            ((ehtTarget hsh s k).items.filter
              (fun p => !(hsh p.1).testBit (ehtTarget hsh s k).depth)),
          (ehtTarget hsh s k).depth + 1⟩,
         ⟨ebInsertAll bsize []
            ((ehtTarget hsh s k).items.filter
              (fun p => (hsh p.1).testBit (ehtTarget hsh s k).depth)),
          (ehtTarget hsh s k).depth + 1⟩] := by
  simp only [ehtSplitStep, ehtTarget]
  rw [foldRoutePair bsize (fun p => (hsh p.1).testBit
    (ehtBucketAt s (ehtDirAt s (ehtIndexOf hsh s.gd k))).depth)]

/-- Where the directory slot of an arbitrary key `k2` points after one split
driven by key `k`: slots that held the split target are redirected by bit
`d₀` of the key's hash, all other slots are unchanged. -/
theorem ehtSplitSlot (bsize : Nat) (hsh : Nat → Nat) (k : Nat) (s : EHT) (k2 : Nat)
    (hlen : s.dir.length = 2 ^ s.gd)
    (hd0 : (ehtTarget hsh s k).depth ≤ s.gd) :
    ehtDirAt (ehtSplitStep bsize hsh k s)
        (ehtIndexOf hsh (ehtSplitStep bsize hsh k s).gd k2) =
      if ehtDirAt s (ehtIndexOf hsh s.gd k2) = ehtDirAt s (ehtIndexOf hsh s.gd k) then
        (if (hsh k2).testBit (ehtTarget hsh s k).depth then s.buckets.length + 1
         else s.buckets.length)
      else ehtDirAt s (ehtIndexOf hsh s.gd k2) := by
  have hpos : ∀ g : Nat, 0 < 2 ^ g := fun g => Nat.pos_pow_of_pos g (by norm_num)
  by_cases hdd : (ehtTarget hsh s k).depth = s.gd
  · have hgd : (ehtSplitStep bsize hsh k s).gd = s.gd + 1 := by rw [ehtSplitGd, if_pos hdd]
    have hdir : (ehtSplitStep bsize hsh k s).dir =
        ((s.dir ++ s.dir).enum.map
          (fun q => if q.2 = ehtDirAt s (ehtIndexOf hsh s.gd k) then
              (if q.1.testBit (ehtTarget hsh s k).depth then s.buckets.length + 1
               else s.buckets.length)
            else q.2)) := by
      have hdd2 : (ehtBucketAt s (ehtDirAt s (ehtIndexOf hsh s.gd k))).depth = s.gd := hdd
      simp only [ehtSplitStep, ehtTarget]
      rw [if_pos hdd2]
    rw [hgd]
    have hidx : ehtIndexOf hsh (s.gd + 1) k2 < (s.dir ++ s.dir).length := by
      simp only [List.length_append, hlen, ehtIndexOf]
      have := Nat.mod_lt (hsh k2) (hpos (s.gd + 1))
      rw [pow_succ] at this
      omega
    unfold ehtDirAt
    rw [hdir, listGetDEnumMap _ _ _ _ 0 hidx,
      listGetDDouble s.dir s.gd _ 0 hlen (by simpa [ehtIndexOf] using Nat.mod_lt (hsh k2) (hpos (s.gd + 1)))]
    have hmm : ehtIndexOf hsh (s.gd + 1) k2 % 2 ^ s.gd = ehtIndexOf hsh s.gd k2 := by
      simp only [ehtIndexOf]
      exact Nat.mod_mod_of_dvd (hsh k2) (pow_dvd_pow 2 (by omega))
    rw [hmm]
    have htb : (ehtIndexOf hsh (s.gd + 1) k2).testBit (ehtTarget hsh s k).depth =
        (hsh k2).testBit (ehtTarget hsh s k).depth := by
      simp only [ehtIndexOf]
      rw [Nat.testBit_mod_two_pow]
      simp [show (ehtTarget hsh s k).depth < s.gd + 1 by omega]
    simp only [htb]
    rfl
  · have hlt : (ehtTarget hsh s k).depth < s.gd := lt_of_le_of_ne hd0 hdd
    have hgd : (ehtSplitStep bsize hsh k s).gd = s.gd := by rw [ehtSplitGd, if_neg hdd]
    have hdir : (ehtSplitStep bsize hsh k s).dir =
        (s.dir.enum.map
          (fun q => if q.2 = ehtDirAt s (ehtIndexOf hsh s.gd k) then
              (if q.1.testBit (ehtTarget hsh s k).depth then s.buckets.length + 1
               else s.buckets.length)
            else q.2)) := by
      have hdd2 : ¬(ehtBucketAt s (ehtDirAt s (ehtIndexOf hsh s.gd k))).depth = s.gd := hdd
      simp only [ehtSplitStep, ehtTarget]
      rw [if_neg hdd2]
    rw [hgd]
    have hidx : ehtIndexOf hsh s.gd k2 < s.dir.length := by
      rw [hlen]
      exact Nat.mod_lt (hsh k2) (hpos s.gd)
    unfold ehtDirAt
    rw [hdir, listGetDEnumMap _ _ _ _ 0 hidx]
    have htb : (ehtIndexOf hsh s.gd k2).testBit (ehtTarget hsh s k).depth =
        (hsh k2).testBit (ehtTarget hsh s k).depth := by
      simp only [ehtIndexOf]
      rw [Nat.testBit_mod_two_pow]
      simp [hlt]
    simp only [htb]
    rfl

/-- After one split driven by key `k`, the bucket at `dir_[IndexOf(k)]` is
the fresh child selected by bit `d₀` of `hash(k)`, holding exactly the old
target's pairs whose hashes agree with `hash(k)` on bit `d₀` (deduplicated
by `Bucket::Insert`), at local depth `d₀ + 1`. -/
theorem ehtTargetAfterSplit (bsize : Nat) (hsh : Nat → Nat) (k : Nat) (s : EHT)
    (hlen : s.dir.length = 2 ^ s.gd)
    (hd0 : (ehtTarget hsh s k).depth ≤ s.gd) :
    ehtTarget hsh (ehtSplitStep bsize hsh k s) k =
      ⟨ebInsertAll bsize []
        ((ehtTarget hsh s k).items.filter
          (fun p => (hsh p.1).testBit (ehtTarget hsh s k).depth ==
            (hsh k).testBit (ehtTarget hsh s k).depth)),
       (ehtTarget hsh s k).depth + 1⟩ := by
  have hslot := ehtSplitSlot bsize hsh k s k hlen hd0
  rw [if_pos rfl] at hslot
  show ehtBucketAt (ehtSplitStep bsize hsh k s)
      (ehtDirAt (ehtSplitStep bsize hsh k s)
        (ehtIndexOf hsh (ehtSplitStep bsize hsh k s).gd k)) = _
  rw [hslot]
  unfold ehtBucketAt
  rw [ehtSplitBuckets bsize hsh k s]
  by_cases hb : (hsh k).testBit (ehtTarget hsh s k).depth
  · rw [if_pos hb, listGetDAppendSelfSucc]
    have hfe : List.filter (fun p => (hsh p.1).testBit (ehtTarget hsh s k).depth ==
        (hsh k).testBit (ehtTarget hsh s k).depth) (ehtTarget hsh s k).items =
        List.filter (fun p => (hsh p.1).testBit (ehtTarget hsh s k).depth)
          (ehtTarget hsh s k).items := by
      apply List.filter_congr
      intro p _
      rw [hb]
      cases hpb : (hsh p.1).testBit (ehtTarget hsh s k).depth <;> simp
    rw [hfe]
  · rw [if_neg hb, listGetDAppendSelf]
    rw [Bool.not_eq_true] at hb
    have hfe : List.filter (fun p => (hsh p.1).testBit (ehtTarget hsh s k).depth ==
        (hsh k).testBit (ehtTarget hsh s k).depth) (ehtTarget hsh s k).items =
        List.filter (fun p => !(hsh p.1).testBit (ehtTarget hsh s k).depth)
          (ehtTarget hsh s k).items := by
      apply List.filter_congr
      intro p _
      rw [hb]
      cases hpb : (hsh p.1).testBit (ehtTarget hsh s k).depth <;> simp
    rw [hfe]

/-! ## Bit-agreement arithmetic -/

theorem natModTwoMulDecomp (a n : Nat) : a % (2 * n) = a % 2 + 2 * (a / 2 % n) := by
  rcases Nat.eq_zero_or_pos n with hn | hn
  · subst hn
    have h1 := Nat.div_add_mod a 2
    simp only [Nat.mul_zero, Nat.mod_zero]
    omega
  · have h1 := Nat.div_add_mod a 2
    have hm1 : a / 2 % n < n := Nat.mod_lt _ hn
    have hm2 : a % 2 < 2 := Nat.mod_lt _ (by norm_num)
    calc a % (2 * n) = (2 * (a / 2) + a % 2) % (2 * n) := by rw [h1]
      _ = ((2 * (a / 2)) % (2 * n) + (a % 2) % (2 * n)) % (2 * n) := Nat.add_mod _ _ _
      _ = (2 * (a / 2 % n) + a % 2) % (2 * n) := by
          rw [Nat.mul_mod_mul_left, Nat.mod_eq_of_lt (show a % 2 < 2 * n by omega)]
      _ = 2 * (a / 2 % n) + a % 2 := Nat.mod_eq_of_lt (by omega)
      _ = a % 2 + 2 * (a / 2 % n) := by omega

theorem ehtAgreeKeySucc (hsh : Nat → Nat) (k d m x : Nat) :
    ehtAgreeKey hsh k d (m + 1) x =
      (((hsh x).testBit d == (hsh k).testBit d) && ehtAgreeKey hsh k (d + 1) m x) := by
  unfold ehtAgreeKey
  have hds : ∀ y : Nat, y / 2 ^ d / 2 = y / 2 ^ (d + 1) := by
    intro y
    rw [Nat.div_div_eq_div_mul, ← pow_succ]
  have hx := natModTwoMulDecomp (hsh x / 2 ^ d) (2 ^ m)
  have hy := natModTwoMulDecomp (hsh k / 2 ^ d) (2 ^ m)
  rw [hds] at hx hy
  have h2 : (2 : Nat) ^ (m + 1) = 2 * 2 ^ m := by rw [pow_succ]; ring
  rw [Bool.eq_iff_iff]
  simp only [h2, hx, hy, Bool.and_eq_true, beq_iff_eq, Nat.testBit_to_div_mod,
    decide_eq_decide]
  have hb1 : hsh x / 2 ^ d % 2 < 2 := Nat.mod_lt _ (by norm_num)
  have hb2 : hsh k / 2 ^ d % 2 < 2 := Nat.mod_lt _ (by norm_num)
  omega

/-! ## Counting through `Bucket::Insert` -/

theorem ebReplaceFirstFilterKey (q : Nat → Bool) (k v : Nat) :
    ∀ items : List (Nat × Nat),
    ((ebReplaceFirst k v items).filter (fun p => q p.1)).length =
      (items.filter (fun p => q p.1)).length := by
  intro items
  induction items with
  | nil => rfl
  | cons p t ih =>
      by_cases hp : p.1 = k
      · simp only [ebReplaceFirst, if_pos hp, List.filter_cons]
        rw [← hp]
        cases hq : q p.1 <;> simp [hq]
      · simp only [ebReplaceFirst, if_neg hp, List.filter_cons]
        cases hq : q p.1 <;> simp [hq, ih]

theorem ebInsertFilterKeyLe (bsize : Nat) (q : Nat → Bool) (items : List (Nat × Nat))
    (k v : Nat) :
    ((ebInsert bsize items k v).filter (fun p => q p.1)).length ≤
      (items.filter (fun p => q p.1)).length + (if q k then 1 else 0) := by
  unfold ebInsert
  split
  · rw [ebReplaceFirstFilterKey]
    omega
  · split
    · omega
    · rw [List.filter_append]
      simp only [List.length_append, List.filter_cons, List.filter_nil]
      cases hq : q k <;> simp [hq]

theorem ebInsertAllFilterKeyLe (bsize : Nat) (q : Nat → Bool) :
    ∀ (l acc : List (Nat × Nat)),
    ((ebInsertAll bsize acc l).filter (fun p => q p.1)).length ≤
      (acc.filter (fun p => q p.1)).length + (l.filter (fun p => q p.1)).length := by
  intro l
  induction l with
  | nil => intro acc; simp [ebInsertAll]
  | cons p t ih =>
      intro acc
      have h1 := ih (ebInsert bsize acc p.1 p.2)
      have h2 := ebInsertFilterKeyLe bsize q acc p.1 p.2
      have h3 : ebInsertAll bsize acc (p :: t) =
          ebInsertAll bsize (ebInsert bsize acc p.1 p.2) t := rfl
      rw [h3]
      simp only [List.filter_cons]
      cases hq : q p.1 <;> simp [hq] at h2 ⊢ <;> omega

/-! ## C9 (amended): termination of the split loop under separation -/

/-- C9 (amended): the split loop terminates for every table state whose
directory is well formed (`len(dir) = 2^global_depth`, target's local depth
`≤ global_depth`) and every key for which *some* number `m` of hash bits
above the target's local depth separates the key from all but fewer than
`bucket_size` of the target's pairs; `m + 1` iterations then suffice, and the
final target slot is not full (so the subsequent `Bucket::Insert` of the pair
succeeds).  The separation hypothesis is exactly what the counterexample
state violates. -/
theorem c9_split_loop_terminates (bsize : Nat) (hsh : Nat → Nat) (k : Nat) (m : Nat) :
    ∀ s : EHT,
    s.dir.length = 2 ^ s.gd →
    (ehtTarget hsh s k).depth ≤ s.gd →
    ((ehtTarget hsh s k).items.filter
      (ehtAgree hsh k (ehtTarget hsh s k).depth m)).length < bsize →
    ∃ s2, ehtLoop bsize hsh (m + 1) k s = some s2 ∧
      ebIsFull bsize (ehtTarget hsh s2 k).items = false := by
  induction m with
  | zero =>
      intro s hlen hdep hm
      have hfe : (ehtTarget hsh s k).items.filter
          (ehtAgree hsh k (ehtTarget hsh s k).depth 0) = (ehtTarget hsh s k).items := by
        apply List.filter_eq_self.mpr
        intro p _
        simp [ehtAgree, ehtAgreeKey, Nat.mod_one]
      rw [hfe] at hm
      have hnf : ebIsFull bsize (ehtTarget hsh s k).items = false := by
        simp only [ebIsFull, decide_eq_false_iff_not]
        omega
      exact ⟨s, by simp [ehtLoop, hnf], hnf⟩
  | succ m ih =>
      intro s hlen hdep hm
      by_cases hfull : ebIsFull bsize (ehtTarget hsh s k).items = true
      · have htgt := ehtTargetAfterSplit bsize hsh k s hlen hdep
        set t := ehtSplitStep bsize hsh k s with ht
        have hlen2 : t.dir.length = 2 ^ t.gd := ehtSplitLen bsize hsh k s hlen
        have hdep2 : (ehtTarget hsh t k).depth ≤ t.gd := by
          rw [htgt, ehtSplitGd]
          show (ehtTarget hsh s k).depth + 1 ≤
            (if (ehtTarget hsh s k).depth = s.gd then s.gd + 1 else s.gd)
          by_cases hdd : (ehtTarget hsh s k).depth = s.gd
          · rw [if_pos hdd]; omega
          · rw [if_neg hdd]
            have := lt_of_le_of_ne hdep hdd
            omega
        have hm2 : ((ehtTarget hsh t k).items.filter
            (ehtAgree hsh k (ehtTarget hsh t k).depth m)).length < bsize := by
          rw [htgt]
          have hle := ebInsertAllFilterKeyLe bsize
            (ehtAgreeKey hsh k ((ehtTarget hsh s k).depth + 1) m)
            ((ehtTarget hsh s k).items.filter
              (fun p => (hsh p.1).testBit (ehtTarget hsh s k).depth ==
                (hsh k).testBit (ehtTarget hsh s k).depth)) []
          simp only [List.filter_nil, List.length_nil, Nat.zero_add] at hle
          have hff : ((ehtTarget hsh s k).items.filter
              (fun p => (hsh p.1).testBit (ehtTarget hsh s k).depth ==
                (hsh k).testBit (ehtTarget hsh s k).depth)).filter
              (fun p => ehtAgreeKey hsh k ((ehtTarget hsh s k).depth + 1) m p.1) =
              (ehtTarget hsh s k).items.filter
                (ehtAgree hsh k (ehtTarget hsh s k).depth (m + 1)) := by
            rw [List.filter_filter]
            apply List.filter_congr
            intro p _
            show (ehtAgreeKey hsh k ((ehtTarget hsh s k).depth + 1) m p.1 &&
              ((hsh p.1).testBit (ehtTarget hsh s k).depth ==
                (hsh k).testBit (ehtTarget hsh s k).depth)) =
              ehtAgree hsh k (ehtTarget hsh s k).depth (m + 1) p
            rw [ehtAgree, ehtAgreeKeySucc, Bool.and_comm]
          calc ((ebInsertAll bsize []
              ((ehtTarget hsh s k).items.filter
                (fun p => (hsh p.1).testBit (ehtTarget hsh s k).depth ==
                  (hsh k).testBit (ehtTarget hsh s k).depth))).filter
              (ehtAgree hsh k ((ehtTarget hsh s k).depth + 1) m)).length
              ≤ (((ehtTarget hsh s k).items.filter
                  (fun p => (hsh p.1).testBit (ehtTarget hsh s k).depth ==
                    (hsh k).testBit (ehtTarget hsh s k).depth)).filter
                  (fun p => ehtAgreeKey hsh k ((ehtTarget hsh s k).depth + 1) m p.1)).length := hle
            _ = ((ehtTarget hsh s k).items.filter
                  (ehtAgree hsh k (ehtTarget hsh s k).depth (m + 1))).length := by rw [hff]
            _ < bsize := hm
        obtain ⟨s2, hs2, hnf⟩ := ih t hlen2 hdep2 hm2
        refine ⟨s2, ?_, hnf⟩
        show ehtLoop bsize hsh (m + 1 + 1) k s = some s2
        simp only [ehtLoop, hfull, if_true]
        exact hs2
      · rw [Bool.not_eq_true] at hfull
        exact ⟨s, by simp [ehtLoop, hfull], hfull⟩

/-- A reachable witness table for the amended C9: `bucket_size = 1`, identity
hash, `Insert(1,1)` performed; inserting key 2 needs exactly one split. -/
def ehtStateC9w : EHT := (ehtRun 1 (fun n => n) 5 [.ins 1 1]).getD ehtInit

/-- Witness for the amended C9 at a concrete input: the hypotheses hold with
`m = 1` and the split loop terminates within 2 iterations. -/
theorem c9_split_loop_terminates_witness :
    ((ehtTarget (fun n => n) ehtStateC9w 2).items.filter
      (ehtAgree (fun n => n) 2 (ehtTarget (fun n => n) ehtStateC9w 2).depth 1)).length < 1 ∧
    ∃ s2, ehtLoop 1 (fun n => n) 2 2 ehtStateC9w = some s2 ∧
      ebIsFull 1 (ehtTarget (fun n => n) s2 2).items = false :=
  ⟨by decide,
    c9_split_loop_terminates 1 (fun n => n) 2 1 ehtStateC9w (by decide) (by decide) (by decide)⟩

/-! ## C10 groundwork: counting keys in buckets -/

theorem countKeyZeroIffFindNone (items : List (Nat × Nat)) (k : Nat) :
    countKey items k = 0 ↔ items.find? (fun p => p.1 = k) = none := by
  rw [countKey, List.length_eq_zero, List.filter_eq_nil_iff, List.find?_eq_none]

theorem countPosExists (items : List (Nat × Nat)) (k : Nat) (h : 0 < countKey items k) :
    ∃ p ∈ items, p.1 = k := by
  rw [countKey, List.length_pos] at h
  obtain ⟨p, hp⟩ := List.exists_mem_of_ne_nil _ h
  refine ⟨p, List.mem_of_mem_filter hp, ?_⟩
  have := List.of_mem_filter hp
  simpa using this

theorem countKeyAppendOne (items : List (Nat × Nat)) (k v k2 : Nat) :
    countKey (items ++ [(k, v)]) k2 = countKey items k2 + (if k = k2 then 1 else 0) := by
  rw [countKey, countKey, List.filter_append]
  simp only [List.length_append, List.filter_cons, List.filter_nil]
  by_cases h : k = k2 <;> simp [h]

theorem countKeyReplaceFirst (items : List (Nat × Nat)) (k v k2 : Nat) :
    countKey (ebReplaceFirst k v items) k2 = countKey items k2 :=
  ebReplaceFirstFilterKey (fun x => x = k2) k v items

theorem countKeyEbInsert (bsize : Nat) (items : List (Nat × Nat)) (k v k2 : Nat)
    (h : countKey items k2 ≤ 1) : countKey (ebInsert bsize items k v) k2 ≤ 1 := by
  unfold ebInsert
  split
  · rw [countKeyReplaceFirst]; exact h
  · split
    · exact h
    · rename_i hfind _
      rw [countKeyAppendOne]
      by_cases hk : k = k2
      · subst hk
        have h0 : countKey items k = 0 := by
          rw [countKeyZeroIffFindNone]
          cases hf : items.find? (fun p => p.1 = k)
          · rfl
          · rw [hf] at hfind; simp at hfind
        simp
        omega
      · simp [hk]
        omega
  
theorem countKeyEbInsertAll (bsize : Nat) :
    ∀ (l acc : List (Nat × Nat)), (∀ k2, countKey acc k2 ≤ 1) →
    ∀ k2, countKey (ebInsertAll bsize acc l) k2 ≤ 1 := by
  intro l
  induction l with
  | nil => intro acc h k2; exact h k2
  | cons p t ih =>
      intro acc h k2
      exact ih (ebInsert bsize acc p.1 p.2)
        (fun k3 => countKeyEbInsert bsize acc p.1 p.2 k3 (h k3)) k2

theorem countKeyFilterLe (r : Nat × Nat → Bool) (items : List (Nat × Nat)) (k : Nat) :
    countKey (items.filter r) k ≤ countKey items k := by
  unfold countKey
  exact ((List.filter_sublist items).filter _).length_le

theorem countKeyEbInsertAllLe (bsize : Nat) (l : List (Nat × Nat)) (k2 : Nat) :
    countKey (ebInsertAll bsize [] l) k2 ≤ countKey l k2 := by
  have := ebInsertAllFilterKeyLe bsize (fun x => x = k2) l []
  simpa [countKey] using this

theorem ebReplaceFirstMemKey (k v : Nat) :
    ∀ (items : List (Nat × Nat)) (p : Nat × Nat), p ∈ ebReplaceFirst k v items →
    ∃ q ∈ items, q.1 = p.1 := by
  intro items
  induction items with
  | nil => intro p hp; simp [ebReplaceFirst] at hp
  | cons q t ih =>
      intro p hp
      by_cases hq : q.1 = k
      · rw [ebReplaceFirst, if_pos hq] at hp
        rcases List.mem_cons.mp hp with h | h
        · exact ⟨q, List.mem_cons_self q t, by rw [h, hq]⟩
        · exact ⟨p, List.mem_cons_of_mem q h, rfl⟩
      · rw [ebReplaceFirst, if_neg hq] at hp
        rcases List.mem_cons.mp hp with h | h
        · exact ⟨q, List.mem_cons_self q t, by rw [h]⟩
        · obtain ⟨q2, hq2, hk2⟩ := ih p h
          exact ⟨q2, List.mem_cons_of_mem q hq2, hk2⟩

theorem ebInsertMemKey (bsize : Nat) (items : List (Nat × Nat)) (k v : Nat)
    (p : Nat × Nat) (hp : p ∈ ebInsert bsize items k v) :
    (∃ q ∈ items, q.1 = p.1) ∨ p.1 = k := by
  unfold ebInsert at hp
  split at hp
  · exact Or.inl (ebReplaceFirstMemKey k v items p hp)
  · split at hp
    · exact Or.inl ⟨p, hp, rfl⟩
    · rcases List.mem_append.mp hp with h | h
      · exact Or.inl ⟨p, h, rfl⟩
      · simp at h
        exact Or.inr (by rw [h])

theorem ebInsertAllMemKey (bsize : Nat) :
    ∀ (l acc : List (Nat × Nat)) (p : Nat × Nat), p ∈ ebInsertAll bsize acc l →
    (∃ q ∈ acc, q.1 = p.1) ∨ ∃ q ∈ l, q.1 = p.1 := by
  intro l
  induction l with
  | nil => intro acc p hp; exact Or.inl ⟨p, hp, rfl⟩
  | cons q t ih =>
      intro acc p hp
      rcases ih (ebInsert bsize acc q.1 q.2) p hp with h | h
      · obtain ⟨q2, hq2, hk2⟩ := h
        rcases ebInsertMemKey bsize acc q.1 q.2 q2 hq2 with h2 | h2
        · obtain ⟨q3, hq3, hk3⟩ := h2
          exact Or.inl ⟨q3, hq3, by rw [hk3, hk2]⟩
        · exact Or.inr ⟨q, List.mem_cons_self q t, by rw [h2] at hk2; rw [hk2]⟩
      · obtain ⟨q2, hq2, hk2⟩ := h
        exact Or.inr ⟨q2, List.mem_cons_of_mem q hq2, hk2⟩

theorem ebRemoveSubset (items : List (Nat × Nat)) (k : Nat) (p : Nat × Nat)
    (hp : p ∈ ebRemove items k) : p ∈ items := by
  unfold ebRemove at hp
  split at hp
  · exact hp
  · exact List.mem_of_mem_filter hp

theorem ebRemoveCountLe (items : List (Nat × Nat)) (k k2 : Nat) :
    countKey (ebRemove items k) k2 ≤ countKey items k2 := by
  unfold ebRemove
  split
  · exact le_refl _
  · exact countKeyFilterLe _ items k2

theorem listTwoMemLength (l : List α) (x y : α) (hx : x ∈ l) (hy : y ∈ l)
    (hne : x ≠ y) : 2 ≤ l.length := by
  obtain ⟨l1, l2, rfl⟩ := List.append_of_mem hx
  rcases List.mem_append.mp hy with h | h
  · have := List.length_pos.mpr (List.ne_nil_of_mem h)
    simp only [List.length_append, List.length_cons]
    omega
  · rcases List.mem_cons.mp h with h2 | h2
    · exact absurd h2.symm hne
    · have := List.length_pos.mpr (List.ne_nil_of_mem h2)
      simp only [List.length_append, List.length_cons]
      omega

theorem ebRemoveCountZero (items : List (Nat × Nat)) (k : Nat)
    (h1 : countKey items k ≤ 1) : countKey (ebRemove items k) k = 0 := by
  unfold ebRemove
  cases hf : ebFind items k with
  | none =>
      unfold ebFind at hf
      cases hf2 : items.find? (fun p => p.1 = k)
      · exact (countKeyZeroIffFindNone items k).mpr hf2
      · rw [hf2] at hf; simp at hf
  | some v =>
      show countKey (items.filter (fun p => p ≠ (k, v))) k = 0
      unfold ebFind at hf
      cases hf2 : items.find? (fun p => p.1 = k) with
      | none => rw [hf2] at hf; simp at hf
      | some a =>
          rw [hf2] at hf
          simp at hf
          have hak : a.1 = k := by simpa using List.find?_some hf2
          have hamem : a ∈ items := List.mem_of_find?_eq_some hf2
          by_contra hne
          have hpos : 0 < countKey (items.filter (fun p => p ≠ (k, v))) k := by omega
          obtain ⟨p, hpmem, hpk⟩ := countPosExists _ k hpos
          have hpitems : p ∈ items := List.mem_of_mem_filter hpmem
          have hpne : p ≠ (k, v) := by simpa using List.of_mem_filter hpmem
          have hane : p ≠ a := by
            intro he
            apply hpne
            rw [he]
            have : a = (a.1, a.2) := rfl
            rw [this, hak, hf]
          have h2 : 2 ≤ countKey items k := by
            unfold countKey
            apply listTwoMemLength _ p a
            · exact List.mem_filter.mpr ⟨hpitems, by simpa using hpk⟩
            · exact List.mem_filter.mpr ⟨hamem, by simpa using hak⟩
            · exact hane
          omega

/-! ## C10: the table invariant -/

/-- Well-formedness invariant of a reachable table: the directory has length
`2^global_depth`, every slot references the arena, every referenced bucket's
local depth is at most the global depth, every key occurs at most once per
bucket, and every pair lives in the bucket its key's hash currently selects
(so the same key cannot live in two distinct buckets). -/
def EInv (hsh : Nat → Nat) (s : EHT) : Prop :=
  s.dir.length = 2 ^ s.gd ∧
  (∀ bid ∈ s.dir, bid < s.buckets.length) ∧
  (∀ bid ∈ s.dir, (ehtBucketAt s bid).depth ≤ s.gd) ∧
  (∀ bid ∈ s.dir, ∀ k2, countKey (ehtBucketAt s bid).items k2 ≤ 1) ∧
  (∀ bid ∈ s.dir, ∀ p ∈ (ehtBucketAt s bid).items,
    s.dir.getD (ehtIndexOf hsh s.gd p.1) 0 = bid)

theorem einvInit (hsh : Nat → Nat) : EInv hsh ehtInit := by
  refine ⟨rfl, ?_, ?_, ?_, ?_⟩ <;>
    · intro bid hbid
      simp only [ehtInit] at hbid
      simp at hbid
      subst hbid
      simp [ehtBucketAt, ehtInit, countKey]

theorem ehtTidMem (hsh : Nat → Nat) (s : EHT) (k : Nat)
    (hlen : s.dir.length = 2 ^ s.gd) :
    ehtDirAt s (ehtIndexOf hsh s.gd k) ∈ s.dir := by
  apply listGetDMem
  rw [hlen]
  exact Nat.mod_lt _ (Nat.pos_pow_of_pos _ (by norm_num))

theorem ehtBucketAtSetEq (s : EHT) (tid : Nat) (b : EBucket)
    (h : tid < s.buckets.length) :
    ehtBucketAt { s with buckets := s.buckets.set tid b } tid = b := by
  unfold ehtBucketAt
  exact listGetDSetEq _ _ _ _ h

theorem ehtBucketAtSetNe (s : EHT) (tid : Nat) (b : EBucket) (bid : Nat)
    (h : bid ≠ tid) :
    ehtBucketAt { s with buckets := s.buckets.set tid b } bid = ehtBucketAt s bid := by
  unfold ehtBucketAt
  exact listGetDSetNe _ _ _ _ _ (fun he => h he.symm)

theorem sumNodupLeOne (g : Nat → Nat) :
    ∀ l : List Nat, l.Nodup → (∀ b ∈ l, g b ≤ 1) →
    (∀ b1 ∈ l, ∀ b2 ∈ l, 0 < g b1 → 0 < g b2 → b1 = b2) →
    (l.map g).sum ≤ 1 := by
  intro l
  induction l with
  | nil => intro _ _ _; simp
  | cons a t ih =>
      intro hnd hle huq
      have hnd2 := List.nodup_cons.mp hnd
      by_cases ha : g a = 0
      · simp only [List.map_cons, List.sum_cons, ha, Nat.zero_add]
        exact ih hnd2.2 (fun b hb => hle b (List.mem_cons_of_mem a hb))
          (fun b1 h1 b2 h2 => huq b1 (List.mem_cons_of_mem a h1) b2 (List.mem_cons_of_mem a h2))
      · have hz : ∀ x ∈ t, g x = 0 := by
          intro x hx
          by_contra hgx
          have := huq x (List.mem_cons_of_mem a hx) a (List.mem_cons_self a t)
            (by omega) (by omega)
          exact hnd2.1 (this ▸ hx)
        have hs : (t.map g).sum = 0 := by
          apply List.sum_eq_zero
          intro x hx
          obtain ⟨b, hb, rfl⟩ := List.mem_map.mp hx
          exact hz b hb
        simp only [List.map_cons, List.sum_cons, hs]
        have := hle a (List.mem_cons_self a t)
        omega

theorem sumNodupSingle (g : Nat → Nat) :
    ∀ l : List Nat, l.Nodup → ∀ b ∈ l, g b = 1 →
    (∀ x ∈ l, x ≠ b → g x = 0) → (l.map g).sum = 1 := by
  intro l
  induction l with
  | nil => intro _ b hb; simp at hb
  | cons a t ih =>
      intro hnd b hb hgb hother
      have hnd2 := List.nodup_cons.mp hnd
      rcases List.mem_cons.mp hb with h | h
      · subst h
        have hs : (t.map g).sum = 0 := by
          apply List.sum_eq_zero
          intro x hx
          obtain ⟨c, hc, rfl⟩ := List.mem_map.mp hx
          exact hother c (List.mem_cons_of_mem b hc)
            (fun he => hnd2.1 (he ▸ hc))
        simp [hs, hgb]
      · have hga : g a = 0 :=
          hother a (List.mem_cons_self a t) (fun he => hnd2.1 (he ▸ h))
        simp only [List.map_cons, List.sum_cons, hga, Nat.zero_add]
        exact ih hnd2.2 b h hgb
          (fun x hx hxb => hother x (List.mem_cons_of_mem a hx) hxb)

theorem einvOccsLe (hsh : Nat → Nat) (s : EHT) (hInv : EInv hsh s) (k : Nat) :
    ehtOccs s k ≤ 1 := by
  obtain ⟨hlen, _, _, huni, hplc⟩ := hInv
  apply sumNodupLeOne _ _ (List.nodup_dedup s.dir)
  · intro b hb
    exact huni b (List.mem_dedup.mp hb) k
  · intro b1 h1 b2 h2 hp1 hp2
    obtain ⟨p1, hp1m, hk1⟩ := countPosExists _ _ hp1
    obtain ⟨p2, hp2m, hk2⟩ := countPosExists _ _ hp2
    have e1 := hplc b1 (List.mem_dedup.mp h1) p1 hp1m
    have e2 := hplc b2 (List.mem_dedup.mp h2) p2 hp2m
    rw [hk1] at e1
    rw [hk2] at e2
    rw [← e1, ← e2]

/-- Key `k` occurs in no bucket referenced by the directory. -/
def ehtZeroK (s : EHT) (k : Nat) : Prop :=
  ∀ bid ∈ s.dir, countKey (ehtBucketAt s bid).items k = 0

theorem einvOccsOne (hsh : Nat → Nat) (s : EHT) (hInv : EInv hsh s) (k : Nat)
    (h1 : countKey (ehtBucketAt s (ehtDirAt s (ehtIndexOf hsh s.gd k))).items k = 1) :
    ehtOccs s k = 1 := by
  obtain ⟨hlen, _, _, _, hplc⟩ := hInv
  apply sumNodupSingle _ _ (List.nodup_dedup s.dir)
    (ehtDirAt s (ehtIndexOf hsh s.gd k))
    (List.mem_dedup.mpr (ehtTidMem hsh s k hlen)) h1
  intro x hx hxne
  by_contra hne
  have hcx : 0 < countKey (ehtBucketAt s x).items k := by omega
  obtain ⟨p, hpm, hpk⟩ := countPosExists _ _ hcx
  have := hplc x (List.mem_dedup.mp hx) p hpm
  rw [hpk] at this
  exact hxne this.symm

/-! ## C10: preservation through Remove and the final bucket insert -/

theorem listFindAppendNone (p : α → Bool) :
    ∀ (l l2 : List α), l.find? p = none → (l ++ l2).find? p = l2.find? p := by
  intro l
  induction l with
  | nil => intro l2 _; rfl
  | cons a t ih =>
      intro l2 h
      rw [List.find?_cons] at h
      cases hp : p a
      · rw [List.cons_append, List.find?_cons, hp]
        rw [hp] at h
        exact ih l2 h
      · rw [hp] at h; simp at h

theorem ehtRemoveOpDir (hsh : Nat → Nat) (s : EHT) (k : Nat) :
    (ehtRemoveOp hsh s k).dir = s.dir := rfl

theorem ehtRemoveOpGd (hsh : Nat → Nat) (s : EHT) (k : Nat) :
    (ehtRemoveOp hsh s k).gd = s.gd := rfl

theorem ehtRemoveOpLen (hsh : Nat → Nat) (s : EHT) (k : Nat) :
    (ehtRemoveOp hsh s k).buckets.length = s.buckets.length := by
  simp [ehtRemoveOp]

theorem ehtRemoveOpBucketAt (hsh : Nat → Nat) (s : EHT) (k : Nat) (bid : Nat)
    (htlt : ehtDirAt s (ehtIndexOf hsh s.gd k) < s.buckets.length) :
    ehtBucketAt (ehtRemoveOp hsh s k) bid =
      (if bid = ehtDirAt s (ehtIndexOf hsh s.gd k) then
        ⟨ebRemove (ehtBucketAt s (ehtDirAt s (ehtIndexOf hsh s.gd k))).items k,
         (ehtBucketAt s (ehtDirAt s (ehtIndexOf hsh s.gd k))).depth⟩
       else ehtBucketAt s bid) := by
  by_cases hb : bid = ehtDirAt s (ehtIndexOf hsh s.gd k)
  · rw [if_pos hb, hb]
    exact ehtBucketAtSetEq s _ _ htlt
  · rw [if_neg hb]
    exact ehtBucketAtSetNe s _ _ bid hb

theorem einvRemovePreserve (hsh : Nat → Nat) (s : EHT) (k : Nat) (hInv : EInv hsh s) :
    EInv hsh (ehtRemoveOp hsh s k) := by
  obtain ⟨hlen, hbnd, hdep, huni, hplc⟩ := hInv
  have htm := ehtTidMem hsh s k hlen
  have htlt : ehtDirAt s (ehtIndexOf hsh s.gd k) < s.buckets.length := hbnd _ htm
  have hball := ehtRemoveOpBucketAt hsh s k
  refine ⟨hlen, ?_, ?_, ?_, ?_⟩
  · intro bid hbid
    rw [ehtRemoveOpLen]
    exact hbnd bid hbid
  · intro bid hbid
    rw [hball bid htlt]
    split
    · exact hdep _ htm
    · exact hdep bid hbid
  · intro bid hbid k2
    rw [hball bid htlt]
    split
    · exact le_trans (ebRemoveCountLe _ k k2) (huni _ htm k2)
    · exact huni bid hbid k2
  · intro bid hbid p hp
    rw [hball bid htlt] at hp
    split at hp
    · rename_i hb
      rw [hb]
      exact hplc _ htm p (ebRemoveSubset _ k p hp)
    · exact hplc bid hbid p hp

theorem einvZeroKOfTargetZero (hsh : Nat → Nat) (s : EHT) (k : Nat) (hInv : EInv hsh s)
    (hf : countKey (ehtBucketAt s (ehtDirAt s (ehtIndexOf hsh s.gd k))).items k = 0) :
    ehtZeroK s k := by
  obtain ⟨hlen, _, _, _, hplc⟩ := hInv
  intro bid hbid
  by_cases hb : bid = ehtDirAt s (ehtIndexOf hsh s.gd k)
  · rw [hb]; exact hf
  · by_contra hne
    have hcx : 0 < countKey (ehtBucketAt s bid).items k := by omega
    obtain ⟨p, hpm, hpk⟩ := countPosExists _ _ hcx
    have := hplc bid hbid p hpm
    rw [hpk] at this
    exact hb this.symm

theorem ehtRemoveZeroK (hsh : Nat → Nat) (s : EHT) (k : Nat) (hInv : EInv hsh s) :
    ehtZeroK (ehtRemoveOp hsh s k) k := by
  obtain ⟨hlen, hbnd, hdep, huni, hplc⟩ := hInv
  have htm := ehtTidMem hsh s k hlen
  have htlt : ehtDirAt s (ehtIndexOf hsh s.gd k) < s.buckets.length := hbnd _ htm
  intro bid hbid
  rw [ehtRemoveOpBucketAt hsh s k bid htlt]
  split
  · exact ebRemoveCountZero _ k (huni _ htm k)
  · rename_i hb
    by_contra hne
    have hcx : 0 < countKey (ehtBucketAt s bid).items k := by omega
    obtain ⟨p, hpm, hpk⟩ := countPosExists _ _ hcx
    have := hplc bid hbid p hpm
    rw [hpk] at this
    exact hb this.symm

theorem ehtFinishDir (bsize : Nat) (hsh : Nat → Nat) (s : EHT) (k v : Nat) :
    (ehtFinishInsert bsize hsh s k v).dir = s.dir := rfl

theorem ehtFinishGd (bsize : Nat) (hsh : Nat → Nat) (s : EHT) (k v : Nat) :
    (ehtFinishInsert bsize hsh s k v).gd = s.gd := rfl

theorem ehtFinishLen (bsize : Nat) (hsh : Nat → Nat) (s : EHT) (k v : Nat) :
    (ehtFinishInsert bsize hsh s k v).buckets.length = s.buckets.length := by
  simp [ehtFinishInsert]

theorem ehtFinishBucketAt (bsize : Nat) (hsh : Nat → Nat) (s : EHT) (k v : Nat) (bid : Nat)
    (htlt : ehtDirAt s (ehtIndexOf hsh s.gd k) < s.buckets.length) :
    ehtBucketAt (ehtFinishInsert bsize hsh s k v) bid =
      (if bid = ehtDirAt s (ehtIndexOf hsh s.gd k) then
        ⟨ebInsert bsize (ehtBucketAt s (ehtDirAt s (ehtIndexOf hsh s.gd k))).items k v,
         (ehtBucketAt s (ehtDirAt s (ehtIndexOf hsh s.gd k))).depth⟩
       else ehtBucketAt s bid) := by
  by_cases hb : bid = ehtDirAt s (ehtIndexOf hsh s.gd k)
  · rw [if_pos hb, hb]
    exact ehtBucketAtSetEq s _ _ htlt
  · rw [if_neg hb]
    exact ehtBucketAtSetNe s _ _ bid hb

theorem einvFinishFacts (bsize : Nat) (hsh : Nat → Nat) (s : EHT) (k v : Nat)
    (hInv : EInv hsh s) (hz : ehtZeroK s k)
    (hnf : ebIsFull bsize (ehtTarget hsh s k).items = false) :
    EInv hsh (ehtFinishInsert bsize hsh s k v) ∧
    ehtFind hsh (ehtFinishInsert bsize hsh s k v) k = some v ∧
    ehtOccs (ehtFinishInsert bsize hsh s k v) k = 1 := by
  obtain ⟨hlen, hbnd, hdep, huni, hplc⟩ := hInv
  have htm := ehtTidMem hsh s k hlen
  have htlt : ehtDirAt s (ehtIndexOf hsh s.gd k) < s.buckets.length := hbnd _ htm
  have hcz : countKey (ehtBucketAt s (ehtDirAt s (ehtIndexOf hsh s.gd k))).items k = 0 :=
    hz _ htm
  have hfn : (ehtBucketAt s (ehtDirAt s (ehtIndexOf hsh s.gd k))).items.find?
      (fun p => p.1 = k) = none := (countKeyZeroIffFindNone _ k).mp hcz
  have hins : ebInsert bsize (ehtBucketAt s (ehtDirAt s (ehtIndexOf hsh s.gd k))).items k v =
      (ehtBucketAt s (ehtDirAt s (ehtIndexOf hsh s.gd k))).items ++ [(k, v)] := by
    unfold ebInsert
    rw [hfn]
    simp only [Option.isSome_none, Bool.false_eq_true, if_false]
    rw [show ebIsFull bsize (ehtBucketAt s (ehtDirAt s (ehtIndexOf hsh s.gd k))).items = false
      from hnf]
    simp
  have hball := ehtFinishBucketAt bsize hsh s k v
  have hEInv : EInv hsh (ehtFinishInsert bsize hsh s k v) := by
    refine ⟨hlen, ?_, ?_, ?_, ?_⟩
    · intro bid hbid
      rw [ehtFinishLen]
      exact hbnd bid hbid
    · intro bid hbid
      rw [hball bid htlt]
      split
      · exact hdep _ htm
      · exact hdep bid hbid
    · intro bid hbid k2
      rw [hball bid htlt]
      split
      · show countKey (ebInsert bsize _ k v) k2 ≤ 1
        rw [hins, countKeyAppendOne]
        by_cases hk : k = k2
        · subst hk
          rw [hcz]
          simp
        · have := huni _ htm k2
          simp [hk]
          omega
      · exact huni bid hbid k2
    · intro bid hbid p hp
      rw [hball bid htlt] at hp
      split at hp
      · rename_i hb
        rw [hb]
        have hp2 : p ∈ ebInsert bsize
            (ehtBucketAt s (ehtDirAt s (ehtIndexOf hsh s.gd k))).items k v := hp
        rw [hins] at hp2
        rcases List.mem_append.mp hp2 with h | h
        · exact hplc _ htm p h
        · simp at h
          rw [h]
          rfl
      · exact hplc bid hbid p hp
  refine ⟨hEInv, ?_, ?_⟩
  · show ebFind (ehtTarget hsh (ehtFinishInsert bsize hsh s k v) k).items k = some v
    have htgt : ehtTarget hsh (ehtFinishInsert bsize hsh s k v) k =
        ⟨ebInsert bsize (ehtBucketAt s (ehtDirAt s (ehtIndexOf hsh s.gd k))).items k v,
         (ehtBucketAt s (ehtDirAt s (ehtIndexOf hsh s.gd k))).depth⟩ := by
      show ehtBucketAt (ehtFinishInsert bsize hsh s k v)
        (ehtDirAt (ehtFinishInsert bsize hsh s k v)
          (ehtIndexOf hsh (ehtFinishInsert bsize hsh s k v).gd k)) = _
      rw [show ehtDirAt (ehtFinishInsert bsize hsh s k v)
          (ehtIndexOf hsh (ehtFinishInsert bsize hsh s k v).gd k) =
          ehtDirAt s (ehtIndexOf hsh s.gd k) from rfl]
      rw [hball _ htlt, if_pos rfl]
    rw [htgt]
    show ebFind (ebInsert bsize _ k v) k = some v
    rw [hins]
    unfold ebFind
    rw [listFindAppendNone _ _ _ hfn]
    simp
  · apply einvOccsOne hsh _ hEInv k
    rw [show ehtDirAt (ehtFinishInsert bsize hsh s k v)
        (ehtIndexOf hsh (ehtFinishInsert bsize hsh s k v).gd k) =
        ehtDirAt s (ehtIndexOf hsh s.gd k) from rfl]
    rw [hball _ htlt, if_pos rfl]
    show countKey (ebInsert bsize _ k v) k = 1
    rw [hins, countKeyAppendOne, hcz]
    simp

/-! ## C10: preservation through one bucket split -/

theorem listEnumFromMemSnd : ∀ (l : List α) (i : Nat) (q : Nat × α),
    q ∈ l.enumFrom i → q.2 ∈ l := by
  intro l
  induction l with
  | nil => intro i q hq; simp [List.enumFrom] at hq
  | cons a t ih =>
      intro i q hq
      rw [List.enumFrom] at hq
      rcases List.mem_cons.mp hq with h | h
      · rw [h]; exact List.mem_cons_self a t
      · exact List.mem_cons_of_mem a (ih (i + 1) q h)

theorem ehtSplitDirEq (bsize : Nat) (hsh : Nat → Nat) (k : Nat) (s : EHT) :
    (ehtSplitStep bsize hsh k s).dir =
      ((if (ehtTarget hsh s k).depth = s.gd then s.dir ++ s.dir else s.dir).enum.map
        (fun q => if q.2 = ehtDirAt s (ehtIndexOf hsh s.gd k) then
          (if q.1.testBit (ehtTarget hsh s k).depth then s.buckets.length + 1
           else s.buckets.length)
          else q.2)) := rfl

theorem ehtSplitBucketsLen (bsize : Nat) (hsh : Nat → Nat) (k : Nat) (s : EHT) :
    (ehtSplitStep bsize hsh k s).buckets.length = s.buckets.length + 2 := by
  rw [ehtSplitBuckets]
  simp

theorem ehtSplitMem (bsize : Nat) (hsh : Nat → Nat) (k : Nat) (s : EHT) :
    ∀ bid ∈ (ehtSplitStep bsize hsh k s).dir,
    (bid = s.buckets.length ∨ bid = s.buckets.length + 1) ∨
      (bid ∈ s.dir ∧ bid ≠ ehtDirAt s (ehtIndexOf hsh s.gd k)) := by
  intro bid hbid
  rw [ehtSplitDirEq] at hbid
  obtain ⟨q, hq, hfq⟩ := List.mem_map.mp hbid
  have hq2 : q.2 ∈ (if (ehtTarget hsh s k).depth = s.gd then s.dir ++ s.dir else s.dir) :=
    listEnumFromMemSnd _ 0 q hq
  have hq2s : q.2 ∈ s.dir := by
    revert hq2
    split
    · intro h
      rcases List.mem_append.mp h with h2 | h2 <;> exact h2
    · exact id
  by_cases hqt : q.2 = ehtDirAt s (ehtIndexOf hsh s.gd k)
  · rw [if_pos hqt] at hfq
    left
    by_cases hbit : q.1.testBit (ehtTarget hsh s k).depth
    · rw [if_pos hbit] at hfq
      right
      exact hfq.symm
    · rw [if_neg hbit] at hfq
      left
      exact hfq.symm
  · rw [if_neg hqt] at hfq
    subst hfq
    exact Or.inr ⟨hq2s, hqt⟩

theorem ehtSplitBucketOld (bsize : Nat) (hsh : Nat → Nat) (k : Nat) (s : EHT) (bid : Nat)
    (h : bid < s.buckets.length) :
    ehtBucketAt (ehtSplitStep bsize hsh k s) bid = ehtBucketAt s bid := by
  unfold ehtBucketAt
  rw [ehtSplitBuckets]
  exact listGetDAppendLeft _ _ _ _ h

theorem ehtSplitBucketNew0 (bsize : Nat) (hsh : Nat → Nat) (k : Nat) (s : EHT) :
    ehtBucketAt (ehtSplitStep bsize hsh k s) s.buckets.length =
      ⟨ebInsertAll bsize []
        ((ehtTarget hsh s k).items.filter
          (fun p => !(hsh p.1).testBit (ehtTarget hsh s k).depth)),
       (ehtTarget hsh s k).depth + 1⟩ := by
  unfold ehtBucketAt
  rw [ehtSplitBuckets]
  exact listGetDAppendSelf _ _ _ _

theorem ehtSplitBucketNew1 (bsize : Nat) (hsh : Nat → Nat) (k : Nat) (s : EHT) :
    ehtBucketAt (ehtSplitStep bsize hsh k s) (s.buckets.length + 1) =
      ⟨ebInsertAll bsize []
        ((ehtTarget hsh s k).items.filter
          (fun p => (hsh p.1).testBit (ehtTarget hsh s k).depth)),
       (ehtTarget hsh s k).depth + 1⟩ := by
  unfold ehtBucketAt
  rw [ehtSplitBuckets]
  exact listGetDAppendSelfSucc _ _ _ _

theorem ehtSplitGdGe (bsize : Nat) (hsh : Nat → Nat) (k : Nat) (s : EHT) :
    s.gd ≤ (ehtSplitStep bsize hsh k s).gd := by
  rw [ehtSplitGd]
  split <;> omega

theorem ehtSplitDepthNewLe (bsize : Nat) (hsh : Nat → Nat) (k : Nat) (s : EHT)
    (hd0 : (ehtTarget hsh s k).depth ≤ s.gd) :
    (ehtTarget hsh s k).depth + 1 ≤ (ehtSplitStep bsize hsh k s).gd := by
  rw [ehtSplitGd]
  by_cases hdd : (ehtTarget hsh s k).depth = s.gd
  · rw [if_pos hdd]; omega
  · rw [if_neg hdd]
    have := lt_of_le_of_ne hd0 hdd
    omega

theorem einvSplitPreserve (bsize : Nat) (hsh : Nat → Nat) (k : Nat) (s : EHT)
    (hInv : EInv hsh s) : EInv hsh (ehtSplitStep bsize hsh k s) := by
  obtain ⟨hlen, hbnd, hdep, huni, hplc⟩ := hInv
  have htm := ehtTidMem hsh s k hlen
  have htlt := hbnd _ htm
  have hd0 : (ehtTarget hsh s k).depth ≤ s.gd := hdep _ htm
  refine ⟨ehtSplitLen bsize hsh k s hlen, ?_, ?_, ?_, ?_⟩
  · intro bid hbid
    rw [ehtSplitBucketsLen]
    rcases ehtSplitMem bsize hsh k s bid hbid with h | ⟨hs, _⟩
    · omega
    · have := hbnd bid hs
      omega
  · intro bid hbid
    rcases ehtSplitMem bsize hsh k s bid hbid with h | ⟨hs, _⟩
    · rcases h with h0 | h1
      · rw [h0, ehtSplitBucketNew0]
        exact ehtSplitDepthNewLe bsize hsh k s hd0
      · rw [h1, ehtSplitBucketNew1]
        exact ehtSplitDepthNewLe bsize hsh k s hd0
    · rw [ehtSplitBucketOld bsize hsh k s bid (hbnd bid hs)]
      exact le_trans (hdep bid hs) (ehtSplitGdGe bsize hsh k s)
  · intro bid hbid k2
    rcases ehtSplitMem bsize hsh k s bid hbid with h | ⟨hs, _⟩
    · rcases h with h0 | h1
      · rw [h0, ehtSplitBucketNew0]
        exact countKeyEbInsertAll bsize _ [] (fun k3 => by simp [countKey]) k2
      · rw [h1, ehtSplitBucketNew1]
        exact countKeyEbInsertAll bsize _ [] (fun k3 => by simp [countKey]) k2
    · rw [ehtSplitBucketOld bsize hsh k s bid (hbnd bid hs)]
      exact huni bid hs k2
  · intro bid hbid p hp
    have hslot := ehtSplitSlot bsize hsh k s p.1 hlen hd0
    rcases ehtSplitMem bsize hsh k s bid hbid with h | ⟨hs, hne⟩
    · rcases h with h0 | h1
      · rw [h0] at hp ⊢
        rw [ehtSplitBucketNew0] at hp
        rcases ebInsertAllMemKey bsize _ [] p hp with hacc | ⟨q, hqf, hqk⟩
        · obtain ⟨q, hq, _⟩ := hacc
          simp at hq
        · have hqmem : q ∈ (ehtBucketAt s (ehtDirAt s (ehtIndexOf hsh s.gd k))).items :=
            List.mem_of_mem_filter hqf
          have hcond : ehtDirAt s (ehtIndexOf hsh s.gd q.1) =
              ehtDirAt s (ehtIndexOf hsh s.gd k) := hplc _ htm q hqmem
          rw [hqk] at hcond
          rw [if_pos hcond] at hslot
          have hbit : (hsh p.1).testBit (ehtTarget hsh s k).depth = false := by
            rw [← hqk]
            simpa using List.of_mem_filter hqf
          rw [hbit] at hslot
          simp only [Bool.false_eq_true, if_false] at hslot
          exact hslot
      · rw [h1] at hp ⊢
        rw [ehtSplitBucketNew1] at hp
        rcases ebInsertAllMemKey bsize _ [] p hp with hacc | ⟨q, hqf, hqk⟩
        · obtain ⟨q, hq, _⟩ := hacc
          simp at hq
        · have hqmem : q ∈ (ehtBucketAt s (ehtDirAt s (ehtIndexOf hsh s.gd k))).items :=
            List.mem_of_mem_filter hqf
          have hcond : ehtDirAt s (ehtIndexOf hsh s.gd q.1) =
              ehtDirAt s (ehtIndexOf hsh s.gd k) := hplc _ htm q hqmem
          rw [hqk] at hcond
          rw [if_pos hcond] at hslot
          have hbit : (hsh p.1).testBit (ehtTarget hsh s k).depth = true := by
            rw [← hqk]
            simpa using List.of_mem_filter hqf
          rw [hbit] at hslot
          simp only [if_true] at hslot
          exact hslot
    · rw [ehtSplitBucketOld bsize hsh k s bid (hbnd bid hs)] at hp
      have hold : ehtDirAt s (ehtIndexOf hsh s.gd p.1) = bid := hplc bid hs p hp
      rw [hold, if_neg hne] at hslot
      exact hslot

theorem ehtSplitZeroK (bsize : Nat) (hsh : Nat → Nat) (k0 k : Nat) (s : EHT)
    (hInv : EInv hsh s) (hz : ehtZeroK s k0) :
    ehtZeroK (ehtSplitStep bsize hsh k s) k0 := by
  obtain ⟨hlen, hbnd, hdep, huni, hplc⟩ := hInv
  have htm := ehtTidMem hsh s k hlen
  have hzt : countKey (ehtTarget hsh s k).items k0 = 0 := hz _ htm
  intro bid hbid
  rcases ehtSplitMem bsize hsh k s bid hbid with h | ⟨hs, _⟩
  · rcases h with h0 | h1
    · rw [h0, ehtSplitBucketNew0]
      have h1 := countKeyEbInsertAllLe bsize
        ((ehtTarget hsh s k).items.filter
          (fun p => !(hsh p.1).testBit (ehtTarget hsh s k).depth)) k0
      have h2 := countKeyFilterLe
        (fun p => !(hsh p.1).testBit (ehtTarget hsh s k).depth)
        (ehtTarget hsh s k).items k0
      show countKey (ebInsertAll bsize [] _) k0 = 0
      omega
    · rw [h1, ehtSplitBucketNew1]
      have h1 := countKeyEbInsertAllLe bsize
        ((ehtTarget hsh s k).items.filter
          (fun p => (hsh p.1).testBit (ehtTarget hsh s k).depth)) k0
      have h2 := countKeyFilterLe
        (fun p => (hsh p.1).testBit (ehtTarget hsh s k).depth)
        (ehtTarget hsh s k).items k0
      show countKey (ebInsertAll bsize [] _) k0 = 0
      omega
  · rw [ehtSplitBucketOld bsize hsh k s bid (hbnd bid hs)]
    exact hz bid hs

/-! ## C10: the split loop, Insert, and traces -/

theorem ehtLoopPreserve (bsize : Nat) (hsh : Nat → Nat) (k : Nat) (P : EHT → Prop)
    (hstep : ∀ s, P s → ebIsFull bsize (ehtTarget hsh s k).items = true →
      P (ehtSplitStep bsize hsh k s)) :
    ∀ (fuel : Nat) (s s2 : EHT), P s → ehtLoop bsize hsh fuel k s = some s2 →
    P s2 ∧ ebIsFull bsize (ehtTarget hsh s2 k).items = false := by
  intro fuel
  induction fuel with
  | zero => intro s s2 _ h; exact absurd h (by simp [ehtLoop])
  | succ m ih =>
      intro s s2 hP h
      rw [ehtLoop] at h
      by_cases hfull : ebIsFull bsize (ehtTarget hsh s k).items = true
      · rw [if_pos hfull] at h
        exact ih _ s2 (hstep s hP hfull) h
      · rw [Bool.not_eq_true] at hfull
        simp only [hfull, Bool.false_eq_true, if_false] at h
        obtain rfl := Option.some.inj h
        exact ⟨hP, hfull⟩

theorem countPosOfFindSome (items : List (Nat × Nat)) (k v : Nat)
    (hf : ebFind items k = some v) : 0 < countKey items k := by
  by_contra hc
  have h0 : countKey items k = 0 := by omega
  have := (countKeyZeroIffFindNone items k).mp h0
  unfold ebFind at hf
  rw [this] at hf
  simp at hf

/-- Everything `Insert` guarantees when it terminates on an invariant-
satisfying table: the invariant still holds, `Find` of the key returns the
just-inserted value, and the key occurs exactly once across all reachable
buckets. -/
theorem einvInsertFacts (bsize : Nat) (hsh : Nat → Nat) (fuel : Nat) (s : EHT) (k v : Nat)
    (hInv : EInv hsh s) (s2 : EHT) (h : ehtInsert bsize hsh fuel s k v = some s2) :
    EInv hsh s2 ∧ ehtFind hsh s2 k = some v ∧ ehtOccs s2 k = 1 := by
  have hP : ∀ t : EHT, (EInv hsh t ∧ ehtZeroK t k) →
      ebIsFull bsize (ehtTarget hsh t k).items = true →
      EInv hsh (ehtSplitStep bsize hsh k t) ∧ ehtZeroK (ehtSplitStep bsize hsh k t) k :=
    fun t ht _ => ⟨einvSplitPreserve bsize hsh k t ht.1, ehtSplitZeroK bsize hsh k k t ht.1 ht.2⟩
  simp only [ehtInsert] at h
  cases hf : ebFind (ehtBucketAt s (ehtDirAt s (ehtIndexOf hsh s.gd k))).items k with
  | some val =>
      simp only [hf] at h
      by_cases hv : val = v
      · rw [if_pos hv] at h
        obtain rfl := Option.some.inj h
        refine ⟨hInv, ?_, ?_⟩
        · show ebFind (ehtBucketAt s (ehtDirAt s (ehtIndexOf hsh s.gd k))).items k = some v
          rw [hf, hv]
        · apply einvOccsOne hsh s hInv k
          have h1 := countPosOfFindSome _ k val hf
          have h2 := hInv.2.2.2.1 _ (ehtTidMem hsh s k hInv.1) k
          omega
      · rw [if_neg hv] at h
        obtain ⟨s3, hs3, hfin⟩ := Option.map_eq_some'.mp h
        have hInv1 : EInv hsh (ehtRemoveOp hsh s k) := einvRemovePreserve hsh s k hInv
        have hz1 : ehtZeroK (ehtRemoveOp hsh s k) k := ehtRemoveZeroK hsh s k hInv
        obtain ⟨⟨hInv3, hz3⟩, hnf3⟩ := ehtLoopPreserve bsize hsh k
          (fun t => EInv hsh t ∧ ehtZeroK t k) hP fuel _ s3 ⟨hInv1, hz1⟩ hs3
        obtain ⟨hI, hfind, hocc⟩ := einvFinishFacts bsize hsh s3 k v hInv3 hz3 hnf3
        rw [← hfin]
        exact ⟨hI, hfind, hocc⟩
  | none =>
      simp only [hf] at h
      obtain ⟨s3, hs3, hfin⟩ := Option.map_eq_some'.mp h
      have hcz : countKey (ehtBucketAt s (ehtDirAt s (ehtIndexOf hsh s.gd k))).items k = 0 := by
        rw [countKeyZeroIffFindNone]
        unfold ebFind at hf
        cases hf2 : (ehtBucketAt s (ehtDirAt s (ehtIndexOf hsh s.gd k))).items.find?
          (fun p => p.1 = k)
        · rfl
        · rw [hf2] at hf; simp at hf
      have hz0 : ehtZeroK s k := einvZeroKOfTargetZero hsh s k hInv hcz
      obtain ⟨⟨hInv3, hz3⟩, hnf3⟩ := ehtLoopPreserve bsize hsh k
        (fun t => EInv hsh t ∧ ehtZeroK t k) hP fuel _ s3 ⟨hInv, hz0⟩ hs3
      obtain ⟨hI, hfind, hocc⟩ := einvFinishFacts bsize hsh s3 k v hInv3 hz3 hnf3
      rw [← hfin]
      exact ⟨hI, hfind, hocc⟩

theorem ehtStepEInv (bsize : Nat) (hsh : Nat → Nat) (fuel : Nat) (s s2 : EHT) (op : EOp)
    (hInv : EInv hsh s) (h : ehtStep bsize hsh fuel s op = some s2) : EInv hsh s2 := by
  cases op with
  | ins k v => exact (einvInsertFacts bsize hsh fuel s k v hInv s2 h).1
  | rm k =>
      simp only [ehtStep] at h
      obtain rfl := Option.some.inj h
      exact einvRemovePreserve hsh s k hInv

theorem ehtFoldNone (bsize : Nat) (hsh : Nat → Nat) (fuel : Nat) :
    ∀ l : List EOp,
    (l.foldl (fun acc op => acc.bind (fun t => ehtStep bsize hsh fuel t op))
      (none : Option EHT)) = none := by
  intro l
  induction l with
  | nil => rfl
  | cons op t ih => simpa using ih

theorem ehtRunEInv (bsize : Nat) (hsh : Nat → Nat) (fuel : Nat) :
    ∀ (ops : List EOp) (s0 : EHT), EInv hsh s0 →
    ∀ s, (ops.foldl (fun acc op => acc.bind (fun t => ehtStep bsize hsh fuel t op))
      (some s0)) = some s → EInv hsh s := by
  intro ops
  induction ops with
  | nil =>
      intro s0 h0 s h
      simp only [List.foldl_nil] at h
      obtain rfl := Option.some.inj h
      exact h0
  | cons op t ih =>
      intro s0 h0 s h
      rw [List.foldl_cons] at h
      have hbind : (some s0).bind (fun t2 => ehtStep bsize hsh fuel t2 op) =
          ehtStep bsize hsh fuel s0 op := rfl
      rw [hbind] at h
      cases hstep : ehtStep bsize hsh fuel s0 op with
      | none =>
          rw [hstep, ehtFoldNone] at h
          simp at h
      | some s1 =>
          rw [hstep] at h
          exact ih s1 (ehtStepEInv bsize hsh fuel s0 s1 op h0 hstep) s h

/-- C10: extendible hash table key uniqueness.  After any terminating
sequence of `Insert` and `Remove` calls from a fresh table, every key occurs
in at most one entry across all buckets reachable from the directory; and a
further terminating `Insert(k, v)` — in particular one whose key is already
present with a different value — leaves exactly one entry for `k`, carrying
`v` (so `Find(k)` returns `v`). -/
theorem c10_key_uniqueness (bsize : Nat) (hsh : Nat → Nat) (fuel : Nat) (ops : List EOp)
    (s : EHT) (h : ehtRun bsize hsh fuel ops = some s) :
    (∀ k2, ehtOccs s k2 ≤ 1) ∧
    (∀ (k v fl2 : Nat) (s2 : EHT), ehtInsert bsize hsh fl2 s k v = some s2 →
      ehtFind hsh s2 k = some v ∧ ehtOccs s2 k = 1) := by
  have hInv : EInv hsh s := ehtRunEInv bsize hsh fuel ops ehtInit (einvInit hsh) s h
  exact ⟨fun k2 => einvOccsLe hsh s hInv k2,
    fun k v fl2 s2 h2 => (einvInsertFacts bsize hsh fl2 s k v hInv s2 h2).2⟩

/-- The table reached by `Insert(5,1); Remove(3); Insert(5,2)` with
`bucket_size = 2` and identity hash. -/
def ehtStateC10w : EHT :=
  (ehtRun 2 (fun n => n) 10 [.ins 5 1, .rm 3, .ins 5 2]).getD ehtInit

/-- The table after a further `Insert(5, 9)` (upsert of an existing key with
a different value). -/
def ehtStateC10w2 : EHT :=
  (ehtInsert 2 (fun n => n) 10 ehtStateC10w 5 9).getD ehtInit

/-- Witness for C10 at a concrete input: the run hypothesis is discharged by
evaluation and the theorem yields uniqueness plus the upsert facts. -/
theorem c10_key_uniqueness_witness :
    ehtRun 2 (fun n => n) 10 [.ins 5 1, .rm 3, .ins 5 2] = some ehtStateC10w ∧
    ehtInsert 2 (fun n => n) 10 ehtStateC10w 5 9 = some ehtStateC10w2 ∧
    ehtOccs ehtStateC10w 5 ≤ 1 ∧
    ehtFind (fun n => n) ehtStateC10w2 5 = some 9 ∧
    ehtOccs ehtStateC10w2 5 = 1 := by
  refine ⟨rfl, rfl, ?_, ?_, ?_⟩
  · exact (c10_key_uniqueness 2 (fun n => n) 10 [.ins 5 1, .rm 3, .ins 5 2]
      ehtStateC10w rfl).1 5
  · exact ((c10_key_uniqueness 2 (fun n => n) 10 [.ins 5 1, .rm 3, .ins 5 2]
      ehtStateC10w rfl).2 5 9 10 ehtStateC10w2 rfl).1
  · exact ((c10_key_uniqueness 2 (fun n => n) 10 [.ins 5 1, .rm 3, .ins 5 2]
      ehtStateC10w rfl).2 5 9 10 ehtStateC10w2 rfl).2
